import Mathlib

/-!
# Value layer of the translation validator (`ir/value.cpp`)

A shallow embedding of `ir/value.cpp`: every value variant translates itself,
given the execution state, into a pair of formulas, and contributes a type
constraint.  The collaborators whose code lives in other files (formulas, the
execution state, the memory model, types, instructions) appear as explicit
data: formulas are terms, the execution state is a record threaded through the
calls, and the operations of the memory model and of types are the fields of an
environment `Env` over which every definition and theorem is parametric.
-/

namespace IR

/-! ## Formulas (`smt::expr`) -/

/-- Formulas as the terms built by the constructors that `ir/value.cpp` calls on
`smt::expr`.  `mkFreshVar pfx id type` is the variable produced by the
`id`-th call of `expr::mkFreshVar(pfx, type)`; `sym` and `app` stand for formulas
built by other components (pointers, dereferenceability predicates, aggregates). -/
inductive expr where
  | mkBool (b : Bool)
  | mkUInt (n : Nat) (bits : Nat)
  | mkVar (name : String) (bits : Nat)
  | mkFreshVar (pfx : String) (id : Nat) (type : expr)
  | mkIf (cond then_ else_ : expr)
  | eq (a b : expr)
  | and (a b : expr)
  | extract (e : expr) (high low : Nat)
  | sym (f : String) (k : Nat)
  | app (f : String) (a b : expr)
  deriving DecidableEq, Repr

namespace expr

/-- Bit width of a formula (`expr::bits()`); booleans count as one bit. -/
def bits : expr → Nat
  | mkBool _ => 1
  | mkUInt _ b => b
  | mkVar _ b => b
  | mkFreshVar _ _ t => t.bits
  | mkIf _ t _ => t.bits
  | eq _ _ => 1
  | and _ _ => 1
  | extract _ high low => high - low + 1
  | sym _ _ => 0
  | app _ _ _ => 0

/-- The comparison `e == n` with an integer literal (`expr::operator==(uint64_t)`):
the literal is a constant of the width of `e`. -/
def eqUInt (e : expr) (n : Nat) : expr :=
  eq e (mkUInt n e.bits)

/-- An interpretation of the atoms of formulas: named variables (by name and
width), fresh variables, and the symbols of other components. -/
structure Model where
  var : String → Nat → Nat
  fresh : String → Nat → Nat
  sym : String → Nat → Nat
  app : String → Nat → Nat → Nat

/-- The value of a formula in a model, with the usual meaning of bit-vector
constants, variables, `extract`, equality, conjunction and if-then-else;
booleans are the numbers 0 and 1. -/
def eval (M : Model) : expr → Nat
  | mkBool b => if b then 1 else 0
  | mkUInt n bits => n % 2 ^ bits
  | mkVar name bits => M.var name bits % 2 ^ bits
  | mkFreshVar pfx id _ => M.fresh pfx id
  | mkIf c t e => if eval M c = 1 then eval M t else eval M e
  | eq a b => if eval M a = eval M b then 1 else 0
  | and a b => if eval M a = 1 ∧ eval M b = 1 then 1 else 0
  | extract e high low => (eval M e / 2 ^ low) % 2 ^ (high - low + 1)
  | sym f k => M.sym f k
  | app f a b => M.app f (eval M a) (eval M b)

/-- A formula holds in a model when it evaluates to true. -/
def holds (M : Model) (e : expr) : Prop := eval M e = 1

instance (M : Model) (e : expr) : Decidable (holds M e) := by
  unfold holds; infer_instance

end expr

/-- A formula pair `(value, non_poison)` (`StateValue`). -/
structure StateValue where
  value : expr
  non_poison : expr
  deriving DecidableEq, Repr

/-- The two fatal outcomes of the layer: a failed `assert` and `UNREACHABLE()`. -/
inductive Fatal where
  | assertion
  | unreachable
  deriving DecidableEq, Repr

/-- Block kinds requested by this file (`Memory::GLOBAL`, `Memory::CONSTGLOBAL`). -/
inductive BlockKind where
  | GLOBAL
  | CONSTGLOBAL
  deriving DecidableEq, Repr

/-- Modelled from the spec: `ParamAttrs` (declared in `ir/attrs.h`): the flags
ByVal, Dereferenceable, NonNull, NoUndef and the numeric fields alignment, byval
block size and dereferenceable byte count. -/
structure ParamAttrs where
  ByVal : Bool
  Dereferenceable : Bool
  NonNull : Bool
  NoUndef : Bool
  align : Nat
  blockSize : Nat
  derefBytes : Nat
  deriving DecidableEq, Repr

/-! ## Execution state -/

/-- Modelled from the spec: the execution state (`ir/state.h`): the table from
global names to `(block id, allocated?)`, the registry of undefined variables,
the accumulated axioms, the flag telling whether the first (source) program is
being evaluated, and the memory.  `fresh_id` is the counter behind
`expr::mkFreshVar`, which is global in the program and is threaded here with
the state. -/
structure State (Memory : Type) where
  glbvar_bids : List (String × Nat × Bool)
  undef_vars : List expr
  axioms : List expr
  source : Bool
  memory : Memory
  fresh_id : Nat

namespace State

variable {Memory : Type}

/-- Whether the state evaluates the first (source) program (`State::isSource`). -/
def isSource (s : State Memory) : Bool := s.source

/-- Looks a global name up (`State::hasGlobalVarBid`): `some (bid, allocated)`
when the table has the name, `none` otherwise. -/
def hasGlobalVarBid (s : State Memory) (name : String) : Option (Nat × Bool) :=
  s.glbvar_bids.lookup name

/-- Sets the allocated flag of the entry of `name` (`State::markGlobalAsAllocated`). -/
def markGlobalAsAllocated (s : State Memory) (name : String) : State Memory :=
  { s with glbvar_bids :=
      s.glbvar_bids.map (fun e => if e.1 = name then (e.1, e.2.1, true) else e) }

/-- Records `name -> (bid, allocated)` (`State::addGlobalVarBid`). -/
def addGlobalVarBid (s : State Memory) (name : String) (bid : Nat) : State Memory :=
  { s with glbvar_bids := s.glbvar_bids ++ [(name, bid, true)] }

/-- Registers an undefined variable (`State::addUndefVar`). -/
def addUndefVar (s : State Memory) (var : expr) : State Memory :=
  { s with undef_vars := s.undef_vars ++ [var] }

/-- Appends an axiom (`State::addAxiom`). -/
def addAxiom (s : State Memory) (ax : expr) : State Memory :=
  { s with axioms := s.axioms ++ [ax] }

/-- Replaces the memory, for the calls that mutate `s.getMemory()`. -/
def setMemory (s : State Memory) (m : Memory) : State Memory :=
  { s with memory := m }

end State

/-- Result of `Memory::alloc`: the returned pair (pointer, allocated), the
block id the memory model used, and the memory after the call. -/
structure AllocResult (Memory : Type) where
  first : expr
  second : expr
  bid : Nat
  memory : Memory

/-- Modelled from the spec: the collaborators of `ir/value.cpp` that live in other
files.  Globals and configuration: `bits_size_t`, `bits_byte`,
`config::disable_undef_input`, `config::disable_poison_input`.  Memory and
pointers: `Memory::alloc(size, align, kind, precond, nonnull, bid)`, the pointer
view `Pointer(m, bid, local).release()`, `Pointer::mkNullPointer(m).release()`,
`Memory::markByVal(bid)` and `Pointer(m, p).isDereferenceable(bytes, align, iswrite)`.
Types, referred to by a handle of type `Ty`: `getTypeConstraints`,
`getDummyValue`, `mkInput`, `mkUndefInput` (which also returns the advanced
fresh-variable counter), `aggregateVals` and `enforceAggregateType` of the
aggregate type.  Instructions, referred to by a number: their translation and
their own type constraints. -/
structure Env (Memory Ty : Type) where
  bits_size_t : Nat
  bits_byte : Nat
  disable_undef_input : Bool
  disable_poison_input : Bool
  alloc : Memory → expr → Nat → BlockKind → expr → expr → Option Nat → AllocResult Memory
  mkPointer : Memory → Nat → Bool → expr
  mkNullPointer : Memory → expr
  markByVal : Memory → Nat → Memory
  isDereferenceable : Memory → expr → Nat → Nat → Bool → expr
  getTypeConstraints : Ty → expr
  getDummyValue : Ty → Bool → StateValue
  mkInput : Ty → State Memory → String → ParamAttrs → expr
  mkUndefInput : Ty → State Memory → ParamAttrs → (expr × List expr) × Nat
  aggregateVals : Ty → List StateValue → StateValue
  enforceAggregateType : Ty → List Ty → expr
  instrToSMT : Nat → State Memory → Except Fatal (StateValue × State Memory)
  instrTypeConstraints : Nat → expr

/-- The environment `E` with another `alloc` operation in place of its own. -/
def Env.withAlloc {Memory Ty : Type} (E : Env Memory Ty)
    (a : Memory → expr → Nat → BlockKind → expr → expr → Option Nat → AllocResult Memory) :
    Env Memory Ty :=
  { E with alloc := a }

/-- Modelled from the spec: the contract of `Type::mkUndefInput` (`ir/type.cpp`),
whose undefined-variant encoding is built from fresh variables: the call
advances the fresh-variable counter, and calls made at different values of
the counter return different encodings. -/
def FreshUndefInput {Memory Ty : Type} (E : Env Memory Ty) (type : Ty)
    (attrs : ParamAttrs) : Prop :=
  (∀ t : State Memory, t.fresh_id < (E.mkUndefInput type t attrs).2) ∧
  (∀ t t' : State Memory, t.fresh_id ≠ t'.fresh_id →
    (E.mkUndefInput type t attrs).1.1 ≠ (E.mkUndefInput type t' attrs).1.1)

/-- Modelled from the spec: the contract of `Type::getDummyValue(non_poison)`
(`ir/type.cpp`), the type's dummy encoding requested as poisoned or not: its
poison-freedom component is the requested flag. -/
def DummyPoisonFlag {Memory Ty : Type} (E : Env Memory Ty) (type : Ty) : Prop :=
  ∀ b : Bool, (E.getDummyValue type b).non_poison = expr.mkBool b

/-! ## Values -/

/-- The value variants of `ir/value.h` together with instructions, which are
values too (`ir/instr.h`).  Every variant carries the fields of the base class
`Value`: the type handle and the display name. -/
inductive Value (Ty : Type) where
  | UndefValue (type : Ty) (name : String)
  | PoisonValue (type : Ty) (name : String)
  | VoidValue (type : Ty) (name : String)
  | NullPointerValue (type : Ty) (name : String)
  | GlobalVariable (type : Ty) (name : String) (allocsize : Nat) (align : Nat)
      (isconst : Bool)
  | AggregateValue (type : Ty) (name : String) (vals : List (Value Ty))
  | Input (type : Ty) (name : String) (smt_name : String) (attrs : ParamAttrs)
  | Instr (type : Ty) (name : String) (id : Nat)

namespace Value

variable {Ty : Type}

/-- The type of a value (`Value::getType`). -/
def getType : Value Ty → Ty
  | UndefValue type _ => type
  | PoisonValue type _ => type
  | VoidValue type _ => type
  | NullPointerValue type _ => type
  | GlobalVariable type _ _ _ _ => type
  | AggregateValue type _ _ => type
  | Input type _ _ _ => type
  | Instr type _ _ => type

/-- The display name of a value (`Value::getName`). -/
def getName : Value Ty → String
  | UndefValue _ name => name
  | PoisonValue _ name => name
  | VoidValue _ name => name
  | NullPointerValue _ name => name
  | GlobalVariable _ name _ _ _ => name
  | AggregateValue _ name _ => name
  | Input _ name _ _ => name
  | Instr _ name _ => name

/-- The test `dynamic_cast<const Instr*>(val)`. -/
def isInstr : Value Ty → Bool
  | Instr _ _ _ => true
  | _ => false

end Value

section Code

variable {Memory Ty : Type}

/-- The method `UndefValue::toSMT`. -/
def UndefValue.toSMT (E : Env Memory Ty) (type : Ty) (s : State Memory) :
    StateValue × State Memory :=
  let val := E.getDummyValue type true
  let var := expr.mkFreshVar "undef" s.fresh_id val.value
  let s := { s with fresh_id := s.fresh_id + 1 }
  let s := s.addUndefVar var
  (⟨var, val.non_poison⟩, s)

/-- The method `PoisonValue::toSMT`. -/
def PoisonValue.toSMT (E : Env Memory Ty) (type : Ty) (s : State Memory) :
    StateValue × State Memory :=
  (E.getDummyValue type false, s)

/-- The method `VoidValue::toSMT`. -/
def VoidValue.toSMT (s : State Memory) : StateValue × State Memory :=
  (⟨expr.mkBool false, expr.mkBool false⟩, s)

/-- The method `NullPointerValue::toSMT`. -/
def NullPointerValue.toSMT (E : Env Memory Ty) (s : State Memory) :
    StateValue × State Memory :=
  let nullp := E.mkNullPointer s.memory
  (⟨nullp, expr.mkBool true⟩, s)

/-- The function `get_global`: returns the pointer, the value left in the output
parameter `bid`, and the state. -/
def get_global (E : Env Memory Ty) (s : State Memory) (name : String) (size : expr)
    (align : Nat) (isconst : Bool) : Except Fatal (expr × Nat × State Memory) :=
  let blkkind := if isconst then BlockKind.CONSTGLOBAL else BlockKind.GLOBAL
  match s.hasGlobalVarBid name with
  | some (bid, allocated) =>
    if !allocated then
      -- Use the same block id that is used by src
      if s.isSource then
        .error Fatal.assertion
      else
        let r := E.alloc s.memory size align blkkind (expr.mkBool true) (expr.mkBool true)
          (some bid)
        let s := s.setMemory r.memory
        let s := s.markGlobalAsAllocated name
        .ok (r.first, bid, s)
    else
      .ok (E.mkPointer s.memory bid false, bid, s)
  | none =>
    let r := E.alloc s.memory size align blkkind (expr.mkBool true) (expr.mkBool true) none
    let s := s.setMemory r.memory
    let s := s.addGlobalVarBid name r.bid
    .ok (r.first, r.bid, s)

/-- The method `GlobalVariable::toSMT`. -/
def GlobalVariable.toSMT (E : Env Memory Ty) (name : String) (allocsize align : Nat)
    (isconst : Bool) (s : State Memory) : Except Fatal (StateValue × State Memory) :=
  let size := expr.mkUInt allocsize E.bits_size_t
  match get_global E s name size align isconst with
  | .error e => .error e
  | .ok (ptr, _, s) => .ok (⟨ptr, expr.mkBool true⟩, s)

/-- The method `Input::getTyVar`: the 2-bit selector variable of an input. -/
def Input.getTyVar (smt_name : String) : expr :=
  let tyname := "ty_" ++ smt_name
  expr.mkVar tyname 2

/-- The method `Input::toSMT`, for an input of type `type`, display name `name`,
symbolic name `smt_name` and attributes `attrs`. -/
def Input.toSMT (E : Env Memory Ty) (type : Ty) (name smt_name : String)
    (attrs : ParamAttrs) (s : State Memory) : Except Fatal (StateValue × State Memory) :=
  -- 00: normal, 01: undef, else: poison
  let ty := Input.getTyVar smt_name
  let has_byval := attrs.ByVal
  let has_deref := attrs.Dereferenceable
  let has_nonnull := attrs.NonNull
  let has_noundef := attrs.NoUndef
  let first : Except Fatal (expr × State Memory) :=
    if has_byval then
      let size := expr.mkUInt attrs.blockSize E.bits_size_t
      match get_global E s name size attrs.align false with
      | .error e => .error e
      | .ok (ptr, bid, s) => .ok (ptr, s.setMemory (E.markByVal s.memory bid))
    else
      .ok (E.mkInput type s smt_name attrs, s)
  match first with
  | .error e => .error e
  | .ok (val, s) =>
    let never_undef := E.disable_undef_input || has_byval || has_deref || has_noundef
    let second : expr × State Memory :=
      if !never_undef then
        let r := E.mkUndefInput type s attrs
        let undef := r.1.1
        let vars := r.1.2
        let s := { s with fresh_id := r.2 }
        let s := vars.foldl (fun s v => s.addUndefVar v) s
        (expr.mkIf ((ty.extract 0 0).eqUInt 0) val undef, s)
      else
        (val, s)
    let val := second.1
    let s := second.2
    let s :=
      if has_deref then
        s.addAxiom (E.isDereferenceable s.memory val attrs.derefBytes (E.bits_byte / 8) false)
      else s
    let poison := (E.getDummyValue type false).non_poison
    let non_poison := (E.getDummyValue type true).non_poison
    let never_poison := E.disable_poison_input || has_byval || has_deref || has_nonnull ||
      has_noundef
    let s :=
      if never_undef then
        s.addAxiom (if never_poison then ty.eqUInt 0 else (ty.extract 0 0).eqUInt 0)
      else if never_poison then
        s.addAxiom ((ty.extract 1 1).eqUInt 0)
      else s
    -- TODO: element-wise poison/undef control
    .ok (⟨val,
          if never_poison then non_poison
          else expr.mkIf ((ty.extract 1 1).eqUInt 0) non_poison poison⟩, s)

mutual

/-- The virtual method `toSMT`, dispatched on the variant. -/
def Value.toSMT (E : Env Memory Ty) :
    Value Ty → State Memory → Except Fatal (StateValue × State Memory)
  | .UndefValue type _, s => .ok (UndefValue.toSMT E type s)
  | .PoisonValue type _, s => .ok (PoisonValue.toSMT E type s)
  | .VoidValue _ _, s => .ok (VoidValue.toSMT s)
  | .NullPointerValue _ _, s => .ok (NullPointerValue.toSMT E s)
  | .GlobalVariable _ name allocsize align isconst, s =>
    GlobalVariable.toSMT E name allocsize align isconst s
  | .AggregateValue type _ vals, s =>
    -- the method `AggregateValue::toSMT`
    match AggregateValue.toSMT_vals E vals s with
    | .error e => .error e
    | .ok (state_vals, s) => .ok (E.aggregateVals type state_vals, s)
  | .Input type name smt_name attrs, s => Input.toSMT E type name smt_name attrs s
  | .Instr _ _ id, s => E.instrToSMT id s

/-- The loop of `AggregateValue::toSMT`: translates the components in order and
collects their formula pairs. -/
def AggregateValue.toSMT_vals (E : Env Memory Ty) :
    List (Value Ty) → State Memory → Except Fatal (List StateValue × State Memory)
  | [], s => .ok ([], s)
  | val :: vals, s =>
    match Value.toSMT E val s with
    | .error e => .error e
    | .ok (sv, s) =>
      match AggregateValue.toSMT_vals E vals s with
      | .error e => .error e
      | .ok (state_vals, s) => .ok (sv :: state_vals, s)

end

mutual

/-- The virtual method `getTypeConstraints`: `Value::getTypeConstraints` for every
variant but the aggregate, which overrides it, and instructions, whose own
method is taken from the environment. -/
def Value.getTypeConstraints (E : Env Memory Ty) : Value Ty → expr
  | .UndefValue type _ => E.getTypeConstraints type
  | .PoisonValue type _ => E.getTypeConstraints type
  | .VoidValue type _ => E.getTypeConstraints type
  | .NullPointerValue type _ => E.getTypeConstraints type
  | .GlobalVariable type _ _ _ _ => E.getTypeConstraints type
  | .Input type _ _ _ => E.getTypeConstraints type
  | .Instr _ _ id => E.instrTypeConstraints id
  | .AggregateValue type _ vals =>
    -- the method `AggregateValue::getTypeConstraints`
    let r := E.getTypeConstraints type
    let types : List Ty := []
    let out := AggregateValue.constraintsLoop E vals r types
    expr.and out.1 (E.enforceAggregateType type out.2)

/-- The loop of `AggregateValue::getTypeConstraints` over the components, with
the accumulators `r` and `types`. -/
def AggregateValue.constraintsLoop (E : Env Memory Ty) :
    List (Value Ty) → expr → List Ty → expr × List Ty
  | [], r, types => (r, types)
  | val :: vals, r, types =>
    let types := types ++ [val.getType]
    if val.isInstr then
      -- Instr's type constraints are already generated by BasicBlock's
      -- getTypeConstraints()
      AggregateValue.constraintsLoop E vals r types
    else
      let r := expr.and r (Value.getTypeConstraints E val)
      AggregateValue.constraintsLoop E vals r types

end

/-- Modelled from the spec: the macro `UNREACHABLE()` (`util/compiler.h`), a
programming-contract violation that aborts instead of returning. -/
def UNREACHABLE {α : Type} : Except Fatal α := .error Fatal.unreachable

/-- The method `UndefValue::print`; `os` is the text already on the stream. -/
def UndefValue.print (_os : String) : Except Fatal String := UNREACHABLE

/-- The method `PoisonValue::print`. -/
def PoisonValue.print (_os : String) : Except Fatal String := UNREACHABLE

/-- The method `VoidValue::print`. -/
def VoidValue.print (_os : String) : Except Fatal String := UNREACHABLE

/-- The method `NullPointerValue::print`. -/
def NullPointerValue.print (_os : String) : Except Fatal String := UNREACHABLE

/-- The method `GlobalVariable::print`: the stream after the text has been
written; the two numbers are written in decimal. -/
def GlobalVariable.print (name : String) (allocsize align : Nat) (isconst : Bool)
    (os : String) : Except Fatal String :=
  .ok (os ++ name ++ " = " ++ (if isconst then "constant " else "global ") ++
    toString allocsize ++ " bytes, align " ++ toString align)

/-- The method `AggregateValue::print`. -/
def AggregateValue.print (_os : String) : Except Fatal String := UNREACHABLE

/-- The method `Input::print`. -/
def Input.print (_os : String) : Except Fatal String := UNREACHABLE

/-- The virtual method `print`, dispatched on the variant; the printing of
instructions, which is not part of `ir/value.cpp`, is the parameter
`instrPrint`. -/
def Value.print (instrPrint : Nat → String → Except Fatal String) :
    Value Ty → String → Except Fatal String
  | .UndefValue _ _, os => UndefValue.print os
  | .PoisonValue _ _, os => PoisonValue.print os
  | .VoidValue _ _, os => VoidValue.print os
  | .NullPointerValue _ _, os => NullPointerValue.print os
  | .GlobalVariable _ name allocsize align isconst, os =>
    GlobalVariable.print name allocsize align isconst os
  | .AggregateValue _ _ _, os => AggregateValue.print os
  | .Input _ _ _ _, os => Input.print os
  | .Instr _ _ id, os => instrPrint id os

end Code

/-- Threading of the state through a list of components, in the words of the
specification of aggregates: the components are translated one after the
other, in list order, each exactly once; the first one sees the initial state,
each next one sees the state left by the one before it, and the formula pairs
are collected in the same order. -/
inductive Threaded {Memory Ty : Type} (E : Env Memory Ty) :
    List (Value Ty) → State Memory → List StateValue → State Memory → Prop where
  | nil (s : State Memory) : Threaded E [] s [] s
  | cons (v : Value Ty) (vs : List (Value Ty)) (s s1 s2 : State Memory) (sv : StateValue)
      (svs : List StateValue) (hv : Value.toSMT E v s = .ok (sv, s1))
      (hvs : Threaded E vs s1 svs s2) : Threaded E (v :: vs) s (sv :: svs) s2

/-! ## A concrete environment

A memory model that counts block ids and records the requests it receives, and
integer types given by their width, on which the code can be run. -/

/-- Modelled from the spec: a memory (`ir/memory.h`) reduced to what this layer
observes: the log of `alloc` requests `(size, align, kind, block id)`, the next
block id the model would choose, and the blocks marked by-value. -/
structure LogMemory where
  allocs : List (expr × Nat × BlockKind × Nat)
  next_bid : Nat
  byval : List Nat
  deriving DecidableEq, Repr

/-- Modelled from the spec: `Memory::alloc` of the logging memory: the block id is
the requested one when given, the next unused one otherwise; the pointer is
the view onto that block. -/
def LogMemory.alloc (m : LogMemory) (size : expr) (align : Nat) (kind : BlockKind)
    (_precond _nonnull : expr) (bidopt : Option Nat) : AllocResult LogMemory :=
  let bid := bidopt.getD m.next_bid
  let next := if bidopt.isSome then m.next_bid else m.next_bid + 1
  { first := expr.sym "blk" bid
    second := expr.mkBool true
    bid := bid
    memory := { m with allocs := m.allocs ++ [(size, align, kind, bid)], next_bid := next } }

/-- Modelled from the spec: an environment over the logging memory whose types are
the integer types, a type being its width: the dummy value is the constant 0
with the requested poison flag, the input encoding is the variable of the
given name, and the undefined variant is one fresh variable. -/
def intEnv (disable_undef_input disable_poison_input : Bool) : Env LogMemory Nat where
  bits_size_t := 64
  bits_byte := 8
  disable_undef_input := disable_undef_input
  disable_poison_input := disable_poison_input
  alloc := LogMemory.alloc
  mkPointer := fun _ bid _ => expr.sym "blk" bid
  mkNullPointer := fun _ => expr.sym "blk" 0
  markByVal := fun m bid => { m with byval := m.byval ++ [bid] }
  isDereferenceable := fun _ p bytes _ _ => expr.app "dereferenceable" p (expr.mkUInt bytes 64)
  getTypeConstraints := fun _ => expr.mkBool true
  getDummyValue := fun w np => ⟨expr.mkUInt 0 w, expr.mkBool np⟩
  mkInput := fun w _ name _ => expr.mkVar name w
  mkUndefInput := fun w s _ =>
    let var := expr.mkFreshVar "undef" s.fresh_id (expr.mkVar "" w)
    ((var, [var]), s.fresh_id + 1)
  aggregateVals := fun _ vals =>
    vals.foldr (fun v acc => ⟨expr.app "concat" v.value acc.value,
      expr.and v.non_poison acc.non_poison⟩) ⟨expr.mkUInt 0 0, expr.mkBool true⟩
  enforceAggregateType := fun w tys => expr.sym "enforce" (w + tys.length)
  instrToSMT := fun id s => .ok (⟨expr.sym "instr" id, expr.mkBool true⟩, s)
  instrTypeConstraints := fun id => expr.sym "instr_type" id

/-- The empty memory of the logging model, whose next block id is `next`. -/
def LogMemory.init (next : Nat) : LogMemory :=
  { allocs := [], next_bid := next, byval := [] }

/-- A state with the given global table and phase, and nothing else recorded. -/
def mkState (glbvar_bids : List (String × Nat × Bool)) (source : Bool) (next : Nat) :
    State LogMemory :=
  { glbvar_bids := glbvar_bids, undef_vars := [], axioms := [], source := source,
    memory := LogMemory.init next, fresh_id := 0 }

end IR

/-! ## Lemmas on the global table -/

namespace IR

section Table

/-- Marking a name allocated keeps its block id and sets its flag. -/
theorem lookup_mark_self (l : List (String × Nat × Bool)) (n : String) (b : Nat) (a : Bool)
    (h : l.lookup n = some (b, a)) :
    (l.map (fun e => if e.1 = n then (e.1, e.2.1, true) else e)).lookup n = some (b, true) := by
  induction l with
  | nil => simp at h
  | cons e l ih =>
    obtain ⟨k, v, f⟩ := e
    by_cases hk : k = n
    · subst hk
      have h1 : (k == k) = true := by simp
      rw [List.lookup_cons, h1] at h
      have hv : v = b := by
        have h2 : (v, f) = (b, a) := Option.some.inj h
        exact congrArg Prod.fst h2
      rw [List.map_cons, if_pos rfl, List.lookup_cons, h1, hv]
    · have hne : (n == k) = false := by
        simp only [beq_eq_false_iff_ne, ne_eq]
        exact fun h' => hk h'.symm
      rw [List.lookup_cons, hne] at h
      rw [List.map_cons, if_neg hk, List.lookup_cons, hne]
      exact ih h

/-- Marking a name allocated leaves the entries of the other names as they are. -/
theorem lookup_mark_other (l : List (String × Nat × Bool)) (n m : String) (hm : m ≠ n) :
    (l.map (fun e => if e.1 = n then (e.1, e.2.1, true) else e)).lookup m = l.lookup m := by
  induction l with
  | nil => rfl
  | cons e l ih =>
    obtain ⟨k, v, f⟩ := e
    by_cases hk : k = n
    · subst hk
      have hne : (m == k) = false := by
        simp only [beq_eq_false_iff_ne, ne_eq]
        exact hm
      rw [List.map_cons, if_pos rfl, List.lookup_cons, List.lookup_cons, hne]
      exact ih
    · rw [List.map_cons, if_neg hk, List.lookup_cons, List.lookup_cons]
      cases (m == k)
      · exact ih
      · rfl

/-- Looking up in a table extended at the end: the old entries win. -/
theorem lookup_append_entry (l : List (String × Nat × Bool)) (n m : String) (b : Nat) :
    (l ++ [(n, b, true)]).lookup m =
      match l.lookup m with
      | some v => some v
      | none => if m = n then some (b, true) else none := by
  induction l with
  | nil =>
    by_cases h : m = n
    · subst h; simp [List.lookup]
    · have hne : (m == n) = false := by
        simp only [beq_eq_false_iff_ne, ne_eq]
        exact h
      simp [List.lookup, hne, h]
  | cons e l ih =>
    obtain ⟨k, v⟩ := e
    simp only [List.cons_append, List.lookup]
    cases (m == k)
    · exact ih
    · rfl

end Table

section Global

variable {Memory Ty : Type}

/-- C1. Global identity: when the table of `s` already records `n -> b`, either
marked allocated, or marked not yet allocated with `s` evaluating the second
program, `get_global` succeeds, leaves `b` in its `bid` output, returns a
pointer onto block `b` (the pointer view onto `b` when the entry was allocated,
the pointer of the allocation requested at the explicit id `b` otherwise), and
leaves the table recording `n -> b` marked allocated.  Hence, whenever a call of
`get_global` for `n` (in the first program) has returned block id `b0`, the
table records `n -> b0`, and every state of the second program whose table
records `n -> b0` resolves `n` to `b0` again. -/
theorem get_global_identity (E : Env Memory Ty) (s : State Memory) (n : String) (b : Nat)
    (allocated : Bool) (size : expr) (align : Nat) (isconst : Bool)
    (hrec : s.hasGlobalVarBid n = some (b, allocated))
    (hphase : allocated = true ∨ s.isSource = false) :
    (∃ ptr s', get_global E s n size align isconst = .ok (ptr, b, s') ∧
      ptr = (if allocated then E.mkPointer s.memory b false
        else (E.alloc s.memory size align
          (if isconst then BlockKind.CONSTGLOBAL else BlockKind.GLOBAL)
          (expr.mkBool true) (expr.mkBool true) (some b)).first) ∧
      s'.hasGlobalVarBid n = some (b, true)) ∧
    (∀ (s0 s1 : State Memory) (p0 size0 : expr) (b0 align0 : Nat) (isconst0 : Bool),
      get_global E s0 n size0 align0 isconst0 = .ok (p0, b0, s1) →
      s1.hasGlobalVarBid n = some (b0, true) ∧
      ∀ (t : State Memory) (flag : Bool), t.isSource = false →
        t.hasGlobalVarBid n = some (b0, flag) →
        ∃ p t', get_global E t n size align isconst = .ok (p, b0, t') ∧
          t'.hasGlobalVarBid n = some (b0, true)) := by
  have main : ∀ (t : State Memory) (c : Nat) (flag : Bool) (sz : expr) (al : Nat) (ic : Bool),
      t.hasGlobalVarBid n = some (c, flag) → (flag = true ∨ t.isSource = false) →
      ∃ ptr t', get_global E t n sz al ic = .ok (ptr, c, t') ∧
        ptr = (if flag then E.mkPointer t.memory c false
          else (E.alloc t.memory sz al
            (if ic then BlockKind.CONSTGLOBAL else BlockKind.GLOBAL)
            (expr.mkBool true) (expr.mkBool true) (some c)).first) ∧
        t'.hasGlobalVarBid n = some (c, true) := by
    intro t c flag sz al ic ht hp
    cases flag with
    | true =>
      refine ⟨E.mkPointer t.memory c false, t, ?_, by simp, ht⟩
      simp [get_global, ht]
    | false =>
      have hsrc : t.isSource = false := by
        rcases hp with h | h
        · cases h
        · exact h
      refine ⟨(E.alloc t.memory sz al
          (if ic then BlockKind.CONSTGLOBAL else BlockKind.GLOBAL)
          (expr.mkBool true) (expr.mkBool true) (some c)).first,
        (t.setMemory (E.alloc t.memory sz al
          (if ic then BlockKind.CONSTGLOBAL else BlockKind.GLOBAL)
          (expr.mkBool true) (expr.mkBool true) (some c)).memory).markGlobalAsAllocated n,
        ?_, by simp, ?_⟩
      · simp only [get_global, ht, hsrc]
        rfl
      · exact lookup_mark_self t.glbvar_bids n c false ht
  refine ⟨main s b allocated size align isconst hrec hphase, ?_⟩
  intro s0 s1 p0 size0 b0 align0 isconst0 h0
  have hs1 : s1.hasGlobalVarBid n = some (b0, true) := by
    unfold get_global at h0
    cases hl : s0.hasGlobalVarBid n with
    | none =>
      simp only [hl] at h0
      injection h0 with h0
      injection h0 with _ h0
      injection h0 with hb hs
      subst hs
      subst hb
      have := lookup_append_entry s0.glbvar_bids n n
        (E.alloc s0.memory size0 align0
          (if isconst0 then BlockKind.CONSTGLOBAL else BlockKind.GLOBAL)
          (expr.mkBool true) (expr.mkBool true) none).bid
      have hl' : s0.glbvar_bids.lookup n = none := hl
      rw [hl'] at this
      simpa [State.hasGlobalVarBid, State.addGlobalVarBid, State.setMemory] using this
    | some v =>
      obtain ⟨c, flag⟩ := v
      simp only [hl] at h0
      cases flag with
      | true =>
        simp at h0
        obtain ⟨_, hb, hs⟩ := h0
        subst hs; subst hb
        exact hl
      | false =>
        cases hsrc : s0.isSource with
        | true => simp [hsrc] at h0
        | false =>
          simp [hsrc] at h0
          obtain ⟨_, hb, hs⟩ := h0
          subst hs; subst hb
          exact lookup_mark_self s0.glbvar_bids n c false hl
  refine ⟨hs1, ?_⟩
  intro t flag htgt ht
  obtain ⟨p, t', h1, _, h3⟩ := main t b0 flag size align isconst ht (Or.inr htgt)
  exact ⟨p, t', h1, h3⟩

/-- C1, on a concrete run: the second program finds `g -> 3` not yet allocated
and resolves `g` to block 3. -/
theorem get_global_identity_witness :
    (mkState [("g", 3, false)] false 5).hasGlobalVarBid "g" = some (3, false) ∧
    ∃ ptr s', get_global (intEnv false false) (mkState [("g", 3, false)] false 5) "g"
        (expr.mkUInt 8 64) 8 true = .ok (ptr, 3, s') ∧
      ptr = expr.sym "blk" 3 ∧ s'.hasGlobalVarBid "g" = some (3, true) :=
  ⟨rfl, (get_global_identity (intEnv false false) (mkState [("g", 3, false)] false 5) "g" 3
    false (expr.mkUInt 8 64) 8 true rfl (Or.inr rfl)).1⟩

/-- C2, as stated, fails: in the second program, with `g -> 3` recorded by the
first program and not yet allocated, translating the constant global `g` of
size 8 and alignment 8 does invoke `alloc` (once, at the explicit id 3), so
the memory is not left as it was. -/
theorem globalVariable_toSMT_invokes_alloc :
    ∃ sv s', GlobalVariable.toSMT (intEnv false false) "g" 8 8 true
        (mkState [("g", 3, false)] false 5) = .ok (sv, s') ∧
      s'.memory.allocs = [(expr.mkUInt 8 64, 8, BlockKind.CONSTGLOBAL, 3)] ∧
      s'.memory ≠ (mkState [("g", 3, false)] false 5).memory :=
  ⟨_, _, rfl, rfl, by decide⟩

/-- C2, amended: in every state of the second program whose table records
`g -> b`, `GlobalVariable::toSMT` resolves `g` to block `b` and never lets the
memory model choose a block id.  When the entry is marked allocated no `alloc`
is invoked: the state is unchanged, the pointer is the view onto `b`, and the
outcome is the same whatever the `alloc` operation is.  When the entry is marked
not yet allocated, `alloc` is invoked once, with the explicit id `b`. -/
theorem globalVariable_toSMT_recorded (E : Env Memory Ty) (s : State Memory) (g : String)
    (b allocsize align : Nat) (isconst flag : Bool)
    (htgt : s.isSource = false) (hrec : s.hasGlobalVarBid g = some (b, flag)) :
    ∃ ptr s', get_global E s g (expr.mkUInt allocsize E.bits_size_t) align isconst =
        .ok (ptr, b, s') ∧
      GlobalVariable.toSMT E g allocsize align isconst s = .ok (⟨ptr, expr.mkBool true⟩, s') ∧
      s'.hasGlobalVarBid g = some (b, true) ∧
      (flag = true → s' = s ∧ ptr = E.mkPointer s.memory b false ∧
        ∀ a, GlobalVariable.toSMT (E.withAlloc a) g allocsize align isconst s =
          GlobalVariable.toSMT E g allocsize align isconst s) ∧
      (flag = false →
        ptr = (E.alloc s.memory (expr.mkUInt allocsize E.bits_size_t) align
          (if isconst then BlockKind.CONSTGLOBAL else BlockKind.GLOBAL)
          (expr.mkBool true) (expr.mkBool true) (some b)).first ∧
        s' = (s.setMemory (E.alloc s.memory (expr.mkUInt allocsize E.bits_size_t) align
          (if isconst then BlockKind.CONSTGLOBAL else BlockKind.GLOBAL)
          (expr.mkBool true) (expr.mkBool true) (some b)).memory).markGlobalAsAllocated g) := by
  cases flag with
  | true =>
    refine ⟨E.mkPointer s.memory b false, s, ?_, ?_, hrec, ?_, ?_⟩
    · simp [get_global, hrec]
    · simp [GlobalVariable.toSMT, get_global, hrec]
    · intro _
      refine ⟨rfl, rfl, ?_⟩
      intro a
      simp [GlobalVariable.toSMT, get_global, hrec, Env.withAlloc]
    · intro h; cases h
  | false =>
    refine ⟨(E.alloc s.memory (expr.mkUInt allocsize E.bits_size_t) align
        (if isconst then BlockKind.CONSTGLOBAL else BlockKind.GLOBAL)
        (expr.mkBool true) (expr.mkBool true) (some b)).first,
      (s.setMemory (E.alloc s.memory (expr.mkUInt allocsize E.bits_size_t) align
        (if isconst then BlockKind.CONSTGLOBAL else BlockKind.GLOBAL)
        (expr.mkBool true) (expr.mkBool true) (some b)).memory).markGlobalAsAllocated g,
      ?_, ?_, ?_, ?_, ?_⟩
    · simp only [get_global, hrec, htgt]
      rfl
    · simp only [GlobalVariable.toSMT, get_global, hrec, htgt]
      rfl
    · exact lookup_mark_self s.glbvar_bids g b false hrec
    · intro h; cases h
    · intro _
      exact ⟨rfl, rfl⟩

/-- C2, amended, on the scenario: the second program finds `g -> 3` already
allocated and resolves the constant global `g` (8 bytes, align 8) to block 3
with the state, and so the log of allocations, unchanged. -/
theorem globalVariable_toSMT_recorded_witness :
    ∃ ptr s', GlobalVariable.toSMT (intEnv false false) "g" 8 8 true
        (mkState [("g", 3, true)] false 5) = .ok (⟨ptr, expr.mkBool true⟩, s') ∧
      s' = mkState [("g", 3, true)] false 5 ∧ ptr = expr.sym "blk" 3 ∧
      s'.memory.allocs = [] := by
  obtain ⟨ptr, s', _, h2, _, h4, _⟩ :=
    globalVariable_toSMT_recorded (intEnv false false) (mkState [("g", 3, true)] false 5)
      "g" 3 8 8 true true rfl rfl
  obtain ⟨hs, hp, _⟩ := h4 rfl
  refine ⟨ptr, s', h2, hs, hp, ?_⟩
  rw [hs]
  rfl

/-- C3. Phase precondition: `get_global` fails, with the assertion failure, exactly
when the name is in the table, marked not yet allocated, and the state evaluates
the first (source) program; in every other case it succeeds and returns a
pointer (with a block id and a state). -/
theorem get_global_fails_iff (E : Env Memory Ty) (s : State Memory) (n : String)
    (size : expr) (align : Nat) (isconst : Bool) :
    (get_global E s n size align isconst = .error Fatal.assertion ↔
      ((∃ b, s.hasGlobalVarBid n = some (b, false)) ∧ s.isSource = true)) ∧
    ((∀ e, get_global E s n size align isconst ≠ .error e) ↔
      ¬ ((∃ b, s.hasGlobalVarBid n = some (b, false)) ∧ s.isSource = true)) ∧
    (¬ ((∃ b, s.hasGlobalVarBid n = some (b, false)) ∧ s.isSource = true) →
      ∃ ptr bid s', get_global E s n size align isconst = .ok (ptr, bid, s')) := by
  cases hl : s.hasGlobalVarBid n with
  | none =>
    refine ⟨?_, ?_, ?_⟩
    · simp [get_global, hl]
    · simp [get_global, hl]
    · intro _
      simp [get_global, hl]
  | some v =>
    obtain ⟨c, flag⟩ := v
    cases flag with
    | true =>
      refine ⟨?_, ?_, ?_⟩
      · simp [get_global, hl]
      · simp [get_global, hl]
      · intro _
        simp [get_global, hl]
    | false =>
      cases hsrc : s.isSource with
      | true =>
        refine ⟨?_, ?_, ?_⟩
        · simp [get_global, hl, hsrc]
        · simp [get_global, hl, hsrc]
        · intro h
          exact absurd ⟨⟨c, rfl⟩, rfl⟩ h
      | false =>
        refine ⟨?_, ?_, ?_⟩
        · simp [get_global, hl, hsrc]
        · simp [get_global, hl, hsrc]
        · intro _
          simp [get_global, hl, hsrc]

/-- C3, on concrete runs: in the first program an entry `g -> 3` not yet
allocated makes `get_global` fail, and in the second program it does not. -/
theorem get_global_fails_iff_witness :
    get_global (intEnv false false) (mkState [("g", 3, false)] true 5) "g"
        (expr.mkUInt 8 64) 8 true = .error Fatal.assertion ∧
    ∃ ptr bid s', get_global (intEnv false false) (mkState [("g", 3, false)] false 5) "g"
        (expr.mkUInt 8 64) 8 true = .ok (ptr, bid, s') :=
  ⟨(get_global_fails_iff (intEnv false false) (mkState [("g", 3, false)] true 5) "g"
      (expr.mkUInt 8 64) 8 true).1.2 ⟨⟨3, rfl⟩, rfl⟩,
   (get_global_fails_iff (intEnv false false) (mkState [("g", 3, false)] false 5) "g"
      (expr.mkUInt 8 64) 8 true).2.2 (by
        rintro ⟨_, h⟩
        cases h)⟩

end Global

/-! ## Inputs -/

section InputLemmas

variable {Memory Ty : Type}

/-- Registering a list of undefined variables appends them to the registry and
touches nothing else. -/
theorem foldl_addUndefVar (vars : List expr) (s : State Memory) :
    vars.foldl (fun s v => s.addUndefVar v) s =
      { s with undef_vars := s.undef_vars ++ vars } := by
  induction vars generalizing s with
  | nil => simp
  | cons v vars ih =>
    rw [List.foldl_cons, ih]
    simp [State.addUndefVar]

/-- The calls of `get_global` leave the axioms, the registry of undefined variables,
the phase and the fresh-variable counter as they are. -/
theorem get_global_frame (E : Env Memory Ty) (s s' : State Memory) (n : String)
    (size ptr : expr) (align bid : Nat) (isconst : Bool)
    (h : get_global E s n size align isconst = .ok (ptr, bid, s')) :
    s'.axioms = s.axioms ∧ s'.undef_vars = s.undef_vars ∧ s'.source = s.source ∧
      s'.fresh_id = s.fresh_id := by
  unfold get_global at h
  cases hl : s.hasGlobalVarBid n with
  | none =>
    simp only [hl] at h
    injection h with h
    injection h with _ h
    injection h with _ hs
    subst hs
    exact ⟨rfl, rfl, rfl, rfl⟩
  | some v =>
    obtain ⟨c, flag⟩ := v
    simp only [hl] at h
    cases flag with
    | true =>
      simp at h
      obtain ⟨_, _, hs⟩ := h
      subst hs
      exact ⟨rfl, rfl, rfl, rfl⟩
    | false =>
      cases hsrc : s.isSource with
      | true => simp [hsrc] at h
      | false =>
        simp [hsrc] at h
        obtain ⟨_, _, hs⟩ := h
        subst hs
        exact ⟨rfl, rfl, rfl, rfl⟩

/-- The selector of an input is a 2-bit variable: its value is below 4. -/
theorem eval_getTyVar_lt (M : expr.Model) (smt_name : String) :
    expr.eval M (Input.getTyVar smt_name) < 4 := by
  simp only [Input.getTyVar, expr.eval]
  exact Nat.mod_lt _ (by norm_num)

/-- The axiom `ty == 0` holds exactly when the selector is 0. -/
theorem holds_ty_eq_zero (M : expr.Model) (smt_name : String) :
    expr.holds M ((Input.getTyVar smt_name).eqUInt 0) ↔
      expr.eval M (Input.getTyVar smt_name) = 0 := by
  simp [expr.holds, expr.eqUInt, expr.eval, Input.getTyVar, expr.bits]

/-- The axiom `ty.extract(i, i) == 0` holds exactly when bit `i` of the selector
is 0. -/
theorem holds_ty_bit_eq_zero (M : expr.Model) (smt_name : String) (i : Nat) :
    expr.holds M (((Input.getTyVar smt_name).extract i i).eqUInt 0) ↔
      expr.eval M ((Input.getTyVar smt_name).extract i i) = 0 := by
  simp [expr.holds, expr.eqUInt, expr.eval, Input.getTyVar, expr.bits]

/-- The translation of a by-value input once `get_global` has returned: the value
is the pointer of `get_global`, the block is marked by-value, the
dereferenceability axiom (if any) and then the axiom `ty == 0` are appended. -/
theorem Input.toSMT_byval (E : Env Memory Ty) (type : Ty) (name smt_name : String)
    (attrs : ParamAttrs) (s s1 : State Memory) (ptr : expr) (bid : Nat)
    (hb : attrs.ByVal = true)
    (hg : get_global E s name (expr.mkUInt attrs.blockSize E.bits_size_t) attrs.align false =
      .ok (ptr, bid, s1)) :
    Input.toSMT E type name smt_name attrs s =
      .ok (⟨ptr, (E.getDummyValue type true).non_poison⟩,
        ((if attrs.Dereferenceable then
            (s1.setMemory (E.markByVal s1.memory bid)).addAxiom
              (E.isDereferenceable (E.markByVal s1.memory bid) ptr attrs.derefBytes
                (E.bits_byte / 8) false)
          else s1.setMemory (E.markByVal s1.memory bid)).addAxiom
          ((Input.getTyVar smt_name).eqUInt 0))) := by
  simp only [Input.toSMT, hb, hg]
  cases attrs.Dereferenceable <;> simp [State.setMemory]

/-- The translation of a by-value input fails exactly as `get_global` does. -/
theorem Input.toSMT_byval_error (E : Env Memory Ty) (type : Ty) (name smt_name : String)
    (attrs : ParamAttrs) (s : State Memory) (e : Fatal)
    (hb : attrs.ByVal = true)
    (hg : get_global E s name (expr.mkUInt attrs.blockSize E.bits_size_t) attrs.align false =
      .error e) :
    Input.toSMT E type name smt_name attrs s = .error e := by
  simp only [Input.toSMT, hb, hg]
  rfl

/-- The translation of an input that is not by-value always returns. -/
theorem Input.toSMT_not_byval (E : Env Memory Ty) (type : Ty) (name smt_name : String)
    (attrs : ParamAttrs) (s : State Memory) (hb : attrs.ByVal = false) :
    Input.toSMT E type name smt_name attrs s =
      (let ty := Input.getTyVar smt_name
       let never_undef := E.disable_undef_input || attrs.Dereferenceable || attrs.NoUndef
       let never_poison := E.disable_poison_input || attrs.Dereferenceable || attrs.NonNull ||
         attrs.NoUndef
       let r := E.mkUndefInput type s attrs
       let val := if never_undef then E.mkInput type s smt_name attrs
         else expr.mkIf ((ty.extract 0 0).eqUInt 0) (E.mkInput type s smt_name attrs) r.1.1
       let s2 : State Memory := if never_undef then s
         else { s with fresh_id := r.2, undef_vars := s.undef_vars ++ r.1.2 }
       let s3 := if attrs.Dereferenceable then
           s2.addAxiom (E.isDereferenceable s2.memory val attrs.derefBytes (E.bits_byte / 8) false)
         else s2
       let s4 := if never_undef then
           s3.addAxiom (if never_poison then ty.eqUInt 0 else (ty.extract 0 0).eqUInt 0)
         else if never_poison then s3.addAxiom ((ty.extract 1 1).eqUInt 0)
         else s3
       .ok (⟨val, if never_poison then (E.getDummyValue type true).non_poison
          else expr.mkIf ((ty.extract 1 1).eqUInt 0) (E.getDummyValue type true).non_poison
            (E.getDummyValue type false).non_poison⟩, s4)) := by
  simp only [Input.toSMT, hb, foldl_addUndefVar]
  cases E.disable_undef_input <;> cases attrs.Dereferenceable <;> cases attrs.NoUndef <;> simp

/-- The only failure of `get_global` is the assertion. -/
theorem get_global_error (E : Env Memory Ty) (s : State Memory) (n : String)
    (size : expr) (align : Nat) (isconst : Bool) (e : Fatal)
    (h : get_global E s n size align isconst = .error e) : e = Fatal.assertion := by
  unfold get_global at h
  cases hl : s.hasGlobalVarBid n with
  | none => simp [hl] at h
  | some v =>
    obtain ⟨c, flag⟩ := v
    cases flag with
    | true => simp [hl] at h
    | false =>
      cases hsrc : s.isSource with
      | true =>
        simp [hl, hsrc] at h
        exact h.symm
      | false => simp [hl, hsrc] at h

/-- An input translation either returns, or the input is by-value and
`get_global` failed its assertion, which the translation passes on. -/
theorem Input.toSMT_total (E : Env Memory Ty) (type : Ty) (name smt_name : String)
    (attrs : ParamAttrs) (s : State Memory) :
    (∃ sv s', Input.toSMT E type name smt_name attrs s = .ok (sv, s')) ∨
    (attrs.ByVal = true ∧
      get_global E s name (expr.mkUInt attrs.blockSize E.bits_size_t) attrs.align false =
        .error Fatal.assertion ∧
      Input.toSMT E type name smt_name attrs s = .error Fatal.assertion) := by
  cases hb : attrs.ByVal with
  | false =>
    left
    rw [Input.toSMT_not_byval E type name smt_name attrs s hb]
    exact ⟨_, _, rfl⟩
  | true =>
    cases hg : get_global E s name (expr.mkUInt attrs.blockSize E.bits_size_t)
        attrs.align false with
    | error e =>
      right
      have he := get_global_error E s name _ _ _ e hg
      subst he
      exact ⟨rfl, rfl, Input.toSMT_byval_error E type name smt_name attrs s _ hb hg⟩
    | ok r =>
      obtain ⟨ptr, bid, s1⟩ := r
      left
      rw [Input.toSMT_byval E type name smt_name attrs s s1 ptr bid hb hg]
      exact ⟨_, _, rfl⟩

/-- The axioms an input translation appends: the dereferenceability axiom when
the attribute is set, then the selector axiom chosen by `never_undef` and
`never_poison`. -/
theorem Input.toSMT_axioms (E : Env Memory Ty) (type : Ty) (name smt_name : String)
    (attrs : ParamAttrs) (s s' : State Memory) (sv : StateValue)
    (h : Input.toSMT E type name smt_name attrs s = .ok (sv, s')) :
    s'.axioms = s.axioms ++
      ((if attrs.Dereferenceable then
          [E.isDereferenceable s'.memory sv.value attrs.derefBytes (E.bits_byte / 8) false]
        else []) ++
       (if (E.disable_undef_input || attrs.ByVal || attrs.Dereferenceable || attrs.NoUndef) then
          [if (E.disable_poison_input || attrs.ByVal || attrs.Dereferenceable || attrs.NonNull ||
              attrs.NoUndef) then (Input.getTyVar smt_name).eqUInt 0
            else ((Input.getTyVar smt_name).extract 0 0).eqUInt 0]
        else if (E.disable_poison_input || attrs.ByVal || attrs.Dereferenceable ||
            attrs.NonNull || attrs.NoUndef) then
          [((Input.getTyVar smt_name).extract 1 1).eqUInt 0]
        else [])) := by
  cases hb : attrs.ByVal with
  | false =>
    rw [Input.toSMT_not_byval E type name smt_name attrs s hb] at h
    simp only at h
    injection h with h
    injection h with hsv hs
    subst hs
    subst hsv
    cases E.disable_undef_input <;> cases E.disable_poison_input <;>
      cases attrs.Dereferenceable <;> cases attrs.NoUndef <;> cases attrs.NonNull <;>
      simp [State.addAxiom]
  | true =>
    cases hg : get_global E s name (expr.mkUInt attrs.blockSize E.bits_size_t)
        attrs.align false with
    | error e =>
      rw [Input.toSMT_byval_error E type name smt_name attrs s e hb hg] at h
      cases h
    | ok r =>
      obtain ⟨ptr, bid, s1⟩ := r
      rw [Input.toSMT_byval E type name smt_name attrs s s1 ptr bid hb hg] at h
      injection h with h
      injection h with hsv hs
      subst hs
      subst hsv
      obtain ⟨hax, _, _, _⟩ := get_global_frame E s s1 name _ ptr _ bid _ hg
      cases attrs.Dereferenceable <;> simp [State.addAxiom, State.setMemory, hax]

end InputLemmas

section InputClaims

variable {Memory Ty : Type}

/-- C4. For an input with the NoUndef attribute, whatever the two configuration
flags and the other attributes are: the translation returns (unless the input
is also by-value and `get_global` fails its assertion), and the axioms it
appends to the state imply that bit 0 of the 2-bit selector `ty_<smt_name>` is 0;
when NonNull is set too, they imply that the whole selector is 0. -/
theorem input_noundef_selector (E : Env Memory Ty) (type : Ty) (name smt_name : String)
    (attrs : ParamAttrs) (s : State Memory) (hnu : attrs.NoUndef = true) :
    ((∃ sv s', Input.toSMT E type name smt_name attrs s = .ok (sv, s')) ∨
      (attrs.ByVal = true ∧
        get_global E s name (expr.mkUInt attrs.blockSize E.bits_size_t) attrs.align false =
          .error Fatal.assertion ∧
        Input.toSMT E type name smt_name attrs s = .error Fatal.assertion)) ∧
    ∀ sv s', Input.toSMT E type name smt_name attrs s = .ok (sv, s') →
      ∃ appended, s'.axioms = s.axioms ++ appended ∧
        ∀ M : expr.Model, (∀ a ∈ appended, expr.holds M a) →
          expr.eval M ((Input.getTyVar smt_name).extract 0 0) = 0 ∧
          (attrs.NonNull = true → expr.eval M (Input.getTyVar smt_name) = 0) := by
  refine ⟨Input.toSMT_total E type name smt_name attrs s, ?_⟩
  intro sv s' h
  refine ⟨_, Input.toSMT_axioms E type name smt_name attrs s s' sv h, ?_⟩
  intro M hM
  have hax : expr.holds M ((Input.getTyVar smt_name).eqUInt 0) := by
    apply hM
    simp [hnu]
  have h0 : expr.eval M (Input.getTyVar smt_name) = 0 :=
    (holds_ty_eq_zero M smt_name).1 hax
  refine ⟨?_, fun _ => h0⟩
  show (expr.eval M (Input.getTyVar smt_name) / 2 ^ 0) % 2 ^ (0 - 0 + 1) = 0
  rw [h0]
  rfl

/-- C4, on a concrete run: a 32-bit input `x` with NoUndef and NonNull, with both
configuration flags off, appends the single axiom `ty_x == 0`. -/
theorem input_noundef_selector_witness :
    ∃ sv s', Input.toSMT (intEnv false false) 32 "noundef nonnull x" "x"
        ⟨false, false, true, true, 0, 0, 0⟩ (mkState [] true 0) = .ok (sv, s') ∧
      s'.axioms = [expr.eq (expr.mkVar "ty_x" 2) (expr.mkUInt 0 2)] ∧
      ∀ M : expr.Model, (∀ a ∈ s'.axioms, expr.holds M a) →
        expr.eval M (expr.mkVar "ty_x" 2) = 0 := by
  refine ⟨_, _, rfl, rfl, ?_⟩
  intro M hM
  obtain ⟨app, happ, hprop⟩ :=
    (input_noundef_selector (intEnv false false) 32 "noundef nonnull x" "x"
      ⟨false, false, true, true, 0, 0, 0⟩ (mkState [] true 0) rfl).2 _ _ rfl
  have happ' : app = [expr.eq (expr.mkVar "ty_x" 2) (expr.mkUInt 0 2)] := by
    have : ([] : List expr) ++ app = [expr.eq (expr.mkVar "ty_x" 2) (expr.mkUInt 0 2)] :=
      happ.symm
    simpa using this
  subst happ'
  exact (hprop M hM).2 rfl

/-- C5, as stated, fails: when the global table already records the display name
of a by-value input as allocated, the translation allocates no block at all
(the log of allocations stays empty); it returns the pointer view onto the
recorded block 3 and marks that block by-value. -/
theorem input_byval_no_allocation :
    ∃ s', Input.toSMT (intEnv false false) 64 "byval p" "p"
        ⟨true, false, false, false, 4, 16, 0⟩ (mkState [("byval p", 3, true)] true 5) =
          .ok (⟨expr.sym "blk" 3, expr.mkBool true⟩, s') ∧
      s'.memory.allocs = [] ∧ s'.memory.byval = [3] :=
  ⟨_, rfl, rfl, rfl⟩

/-- C5, amended.  For an input with ByVal set, whatever the other attributes and
the configuration flags are.  In a state where the display name of the input is
not in the global table, or is recorded not yet allocated while the second
program is evaluated, the translation allocates one block of kind GLOBAL whose
size is `attrs.blockSize` (as a `bits_size_t` constant) and whose alignment is
`attrs.align` (at an id of the memory model's choice, resp. at the recorded id),
marks the id of that block by-value, returns the pointer of the allocation as
the value and the non-poisoned marker as poison-freedom, and registers no
undefined variable.  In a state where the name is recorded as allocated, no
block is allocated: the value is the pointer view onto the recorded block, which
is marked by-value.  In a state of the first program where the name is recorded
not yet allocated, the translation fails with the assertion of `get_global`. -/
theorem input_byval (E : Env Memory Ty) (type : Ty) (name smt_name : String)
    (attrs : ParamAttrs) (s : State Memory) (hb : attrs.ByVal = true) :
    (∀ bidopt : Option Nat,
      ((bidopt = none ∧ s.hasGlobalVarBid name = none) ∨
        (∃ b, bidopt = some b ∧ s.hasGlobalVarBid name = some (b, false) ∧
          s.isSource = false)) →
      ∃ s', Input.toSMT E type name smt_name attrs s =
          .ok (⟨(E.alloc s.memory (expr.mkUInt attrs.blockSize E.bits_size_t) attrs.align
            BlockKind.GLOBAL (expr.mkBool true) (expr.mkBool true) bidopt).first,
            (E.getDummyValue type true).non_poison⟩, s') ∧
        s'.memory = E.markByVal
          (E.alloc s.memory (expr.mkUInt attrs.blockSize E.bits_size_t) attrs.align
            BlockKind.GLOBAL (expr.mkBool true) (expr.mkBool true) bidopt).memory
          (bidopt.getD (E.alloc s.memory (expr.mkUInt attrs.blockSize E.bits_size_t)
            attrs.align BlockKind.GLOBAL (expr.mkBool true) (expr.mkBool true) bidopt).bid) ∧
        s'.undef_vars = s.undef_vars ∧ s'.fresh_id = s.fresh_id) ∧
    (∀ b, s.hasGlobalVarBid name = some (b, true) →
      ∃ s', Input.toSMT E type name smt_name attrs s =
          .ok (⟨E.mkPointer s.memory b false, (E.getDummyValue type true).non_poison⟩, s') ∧
        s'.memory = E.markByVal s.memory b ∧
        s'.undef_vars = s.undef_vars ∧ s'.fresh_id = s.fresh_id) ∧
    (∀ b, s.hasGlobalVarBid name = some (b, false) → s.isSource = true →
      Input.toSMT E type name smt_name attrs s = .error Fatal.assertion) := by
  refine ⟨?_, ?_, ?_⟩
  · intro bidopt hcase
    rcases hcase with ⟨hnone, hl⟩ | ⟨b, hsome, hl, htgt⟩
    · subst hnone
      have hg : get_global E s name (expr.mkUInt attrs.blockSize E.bits_size_t) attrs.align
          false = .ok ((E.alloc s.memory (expr.mkUInt attrs.blockSize E.bits_size_t)
            attrs.align BlockKind.GLOBAL (expr.mkBool true) (expr.mkBool true) none).first,
            (E.alloc s.memory (expr.mkUInt attrs.blockSize E.bits_size_t)
            attrs.align BlockKind.GLOBAL (expr.mkBool true) (expr.mkBool true) none).bid,
            (s.setMemory (E.alloc s.memory (expr.mkUInt attrs.blockSize E.bits_size_t)
            attrs.align BlockKind.GLOBAL (expr.mkBool true) (expr.mkBool true)
              none).memory).addGlobalVarBid name
            (E.alloc s.memory (expr.mkUInt attrs.blockSize E.bits_size_t)
            attrs.align BlockKind.GLOBAL (expr.mkBool true) (expr.mkBool true) none).bid) := by
        simp only [get_global, hl]
        rfl
      refine ⟨_, Input.toSMT_byval E type name smt_name attrs s _ _ _ hb hg, ?_, ?_, ?_⟩
      · cases attrs.Dereferenceable <;> rfl
      · cases attrs.Dereferenceable <;> rfl
      · cases attrs.Dereferenceable <;> rfl
    · subst hsome
      have hg : get_global E s name (expr.mkUInt attrs.blockSize E.bits_size_t) attrs.align
          false = .ok ((E.alloc s.memory (expr.mkUInt attrs.blockSize E.bits_size_t)
            attrs.align BlockKind.GLOBAL (expr.mkBool true) (expr.mkBool true) (some b)).first,
            b,
            (s.setMemory (E.alloc s.memory (expr.mkUInt attrs.blockSize E.bits_size_t)
            attrs.align BlockKind.GLOBAL (expr.mkBool true) (expr.mkBool true)
              (some b)).memory).markGlobalAsAllocated name) := by
        simp only [get_global, hl, htgt]
        rfl
      refine ⟨_, Input.toSMT_byval E type name smt_name attrs s _ _ _ hb hg, ?_, ?_, ?_⟩
      · cases attrs.Dereferenceable <;> rfl
      · cases attrs.Dereferenceable <;> rfl
      · cases attrs.Dereferenceable <;> rfl
  · intro b hl
    have hg : get_global E s name (expr.mkUInt attrs.blockSize E.bits_size_t) attrs.align
        false = .ok (E.mkPointer s.memory b false, b, s) := by
      simp [get_global, hl]
    refine ⟨_, Input.toSMT_byval E type name smt_name attrs s _ _ _ hb hg, ?_, ?_, ?_⟩
    · cases attrs.Dereferenceable <;> rfl
    · cases attrs.Dereferenceable <;> rfl
    · cases attrs.Dereferenceable <;> rfl
  · intro b hl hsrc
    apply Input.toSMT_byval_error E type name smt_name attrs s _ hb
    simp [get_global, hl, hsrc]

/-- C5, amended, on a concrete run: a by-value input with block size 16 and
alignment 4 whose name is not in the table gets one block of kind GLOBAL of
that size and alignment, at the next id 5, which is marked by-value. -/
theorem input_byval_witness :
    ∃ s', Input.toSMT (intEnv false false) 64 "byval p" "p"
        ⟨true, false, false, false, 4, 16, 0⟩ (mkState [] true 5) =
          .ok (⟨expr.sym "blk" 5, expr.mkBool true⟩, s') ∧
      s'.memory = ⟨[(expr.mkUInt 16 64, 4, BlockKind.GLOBAL, 5)], 6, [5]⟩ ∧
      s'.undef_vars = [] ∧ s'.fresh_id = 0 :=
  (input_byval (intEnv false false) 64 "byval p" "p" ⟨true, false, false, false, 4, 16, 0⟩
    (mkState [] true 5) rfl).1 none (Or.inl ⟨rfl, rfl⟩)

/-- C6, as stated, fails for inputs: a 32-bit input `x` with the NoUndef attribute
translated twice, the state being threaded, returns the very same formula pair
both times, and no fresh variable is created (the counter stays at 0 and the
registry of undefined variables stays empty). -/
theorem input_toSMT_twice_same :
    ∃ sv s1 s2,
      Input.toSMT (intEnv false false) 32 "noundef x" "x" ⟨false, false, false, true, 0, 0, 0⟩
        (mkState [] true 0) = .ok (sv, s1) ∧
      Input.toSMT (intEnv false false) 32 "noundef x" "x" ⟨false, false, false, true, 0, 0, 0⟩
        s1 = .ok (sv, s2) ∧
      s2.undef_vars = [] ∧ s2.fresh_id = 0 :=
  ⟨_, _, _, rfl, rfl, rfl, rfl⟩

/-- C6, amended.  Translating an Undef value twice, the state being threaded,
yields two distinct fresh variables, both registered, so the two returned
pairs differ.  Translating twice an Input for which `never_undef` is false, with
a type whose undefined-variant encoding is fresh at each call, returns two
values that differ (in their undefined variants; the selector variable is the
same in both).  An Input for which `never_undef` holds creates no fresh variable
and registers no undefined variable. -/
theorem toSMT_twice_fresh (E : Env Memory Ty) (type : Ty) (name smt_name : String)
    (attrs : ParamAttrs) (s : State Memory) :
    ((UndefValue.toSMT E type s).1.value ≠
        (UndefValue.toSMT E type (UndefValue.toSMT E type s).2).1.value ∧
      (UndefValue.toSMT E type s).1 ≠
        (UndefValue.toSMT E type (UndefValue.toSMT E type s).2).1 ∧
      (UndefValue.toSMT E type (UndefValue.toSMT E type s).2).2.undef_vars =
        s.undef_vars ++ [(UndefValue.toSMT E type s).1.value,
          (UndefValue.toSMT E type (UndefValue.toSMT E type s).2).1.value]) ∧
    ((E.disable_undef_input || attrs.ByVal || attrs.Dereferenceable || attrs.NoUndef) = false →
      FreshUndefInput E type attrs →
      ∃ sv1 s1 sv2 s2, Input.toSMT E type name smt_name attrs s = .ok (sv1, s1) ∧
        Input.toSMT E type name smt_name attrs s1 = .ok (sv2, s2) ∧
        sv1.value ≠ sv2.value ∧ sv1 ≠ sv2) ∧
    ((E.disable_undef_input || attrs.ByVal || attrs.Dereferenceable || attrs.NoUndef) = true →
      ∀ sv1 s1, Input.toSMT E type name smt_name attrs s = .ok (sv1, s1) →
        s1.fresh_id = s.fresh_id ∧ s1.undef_vars = s.undef_vars) := by
  refine ⟨⟨?_, ?_, ?_⟩, ?_, ?_⟩
  · simp [UndefValue.toSMT, State.addUndefVar]
  · intro h
    have := congrArg StateValue.value h
    simp [UndefValue.toSMT, State.addUndefVar] at this
  · simp [UndefValue.toSMT, State.addUndefVar]
  · intro hnu hfresh
    have hb : attrs.ByVal = false := by
      cases h : attrs.ByVal
      · rfl
      · simp [h] at hnu
    have hnu' : (E.disable_undef_input || attrs.Dereferenceable || attrs.NoUndef) = false := by
      simpa [hb] using hnu
    have key : ∀ t : State Memory, ∃ t', Input.toSMT E type name smt_name attrs t =
        .ok (⟨expr.mkIf (((Input.getTyVar smt_name).extract 0 0).eqUInt 0)
          (E.mkInput type t smt_name attrs) (E.mkUndefInput type t attrs).1.1,
          if (E.disable_poison_input || attrs.Dereferenceable || attrs.NonNull ||
              attrs.NoUndef) then (E.getDummyValue type true).non_poison
          else expr.mkIf (((Input.getTyVar smt_name).extract 1 1).eqUInt 0)
            (E.getDummyValue type true).non_poison (E.getDummyValue type false).non_poison⟩,
          t') ∧ t'.fresh_id = (E.mkUndefInput type t attrs).2 := by
      intro t
      rw [Input.toSMT_not_byval E type name smt_name attrs t hb]
      simp only [hnu']
      refine ⟨_, rfl, ?_⟩
      have hd : attrs.Dereferenceable = false := by
        cases h : attrs.Dereferenceable
        · rfl
        · simp [h] at hnu'
      cases (E.disable_poison_input || attrs.Dereferenceable || attrs.NonNull ||
        attrs.NoUndef) <;> simp [hd, State.addAxiom]
    obtain ⟨s1, h1, hf1⟩ := key s
    obtain ⟨s2, h2, _⟩ := key s1
    have hne : (E.mkUndefInput type s attrs).1.1 ≠ (E.mkUndefInput type s1 attrs).1.1 := by
      apply hfresh.2
      have := hfresh.1 s
      omega
    refine ⟨_, s1, _, s2, h1, h2, ?_, ?_⟩
    · intro h
      injection h with _ _ hu
      exact hne hu
    · intro h
      have hv := congrArg StateValue.value h
      injection hv with _ _ hu
      exact hne hu
  · intro hnu sv1 s1 h
    cases hb : attrs.ByVal with
    | false =>
      have hnu' : (E.disable_undef_input || attrs.Dereferenceable || attrs.NoUndef) = true := by
        simpa [hb] using hnu
      rw [Input.toSMT_not_byval E type name smt_name attrs s hb] at h
      simp only [hnu'] at h
      injection h with h
      injection h with _ hs
      subst hs
      cases attrs.Dereferenceable <;> simp [State.addAxiom]
    | true =>
      cases hg : get_global E s name (expr.mkUInt attrs.blockSize E.bits_size_t)
          attrs.align false with
      | error e =>
        rw [Input.toSMT_byval_error E type name smt_name attrs s e hb hg] at h
        cases h
      | ok r =>
        obtain ⟨ptr, bid, s0⟩ := r
        rw [Input.toSMT_byval E type name smt_name attrs s s0 ptr bid hb hg] at h
        injection h with h
        injection h with _ hs
        subst hs
        obtain ⟨_, hu, _, hf⟩ := get_global_frame E s s0 name _ ptr _ bid _ hg
        cases attrs.Dereferenceable <;> simp [State.addAxiom, State.setMemory, hu, hf]

/-- C6, amended, on a concrete run: a 32-bit input `x` without attributes,
translated twice with both configuration flags off, gets the undefined variants
`undef!0` and `undef!1`. -/
theorem toSMT_twice_fresh_witness :
    FreshUndefInput (intEnv false false) 32 ⟨false, false, false, false, 0, 0, 0⟩ ∧
    ∃ sv1 s1 sv2 s2,
      Input.toSMT (intEnv false false) 32 "x" "x" ⟨false, false, false, false, 0, 0, 0⟩
        (mkState [] true 0) = .ok (sv1, s1) ∧
      Input.toSMT (intEnv false false) 32 "x" "x" ⟨false, false, false, false, 0, 0, 0⟩
        s1 = .ok (sv2, s2) ∧
      sv1.value ≠ sv2.value ∧ sv1 ≠ sv2 := by
  have hfresh : FreshUndefInput (intEnv false false) 32 ⟨false, false, false, false, 0, 0, 0⟩ := by
    refine ⟨fun t => ?_, fun t t' h => ?_⟩
    · simp [intEnv]
    · simpa [intEnv] using h
  exact ⟨hfresh,
    (toSMT_twice_fresh (intEnv false false) 32 "x" "x" ⟨false, false, false, false, 0, 0, 0⟩
      (mkState [] true 0)).2.1 rfl hfresh⟩

/-- C7. For an input with none of ByVal, Dereferenceable, NonNull, NoUndef, and
with both configuration flags off: the translation returns, appends no axiom,
registers the auxiliary variables of the type's undefined variant, returns as
value the conditional on bit 0 of the selector between the normal input
encoding and the undefined variant, and as poison-freedom the conditional on
bit 1 of the selector between the non-poisoned and the poisoned marker.  The
selector is a 2-bit variable, and inputs with distinct symbolic names have
distinct selectors. -/
theorem input_plain (E : Env Memory Ty) (type : Ty) (name smt_name : String)
    (attrs : ParamAttrs) (s : State Memory)
    (hu : E.disable_undef_input = false) (hp : E.disable_poison_input = false)
    (hb : attrs.ByVal = false) (hd : attrs.Dereferenceable = false)
    (hnn : attrs.NonNull = false) (hnu : attrs.NoUndef = false) :
    (∃ s', Input.toSMT E type name smt_name attrs s =
        .ok (⟨expr.mkIf
            (expr.eq (expr.extract (Input.getTyVar smt_name) 0 0) (expr.mkUInt 0 1))
            (E.mkInput type s smt_name attrs) (E.mkUndefInput type s attrs).1.1,
          expr.mkIf
            (expr.eq (expr.extract (Input.getTyVar smt_name) 1 1) (expr.mkUInt 0 1))
            (E.getDummyValue type true).non_poison
            (E.getDummyValue type false).non_poison⟩, s') ∧
      s'.axioms = s.axioms ∧
      s'.undef_vars = s.undef_vars ++ (E.mkUndefInput type s attrs).1.2 ∧
      s'.memory = s.memory ∧ s'.glbvar_bids = s.glbvar_bids) ∧
    Input.getTyVar smt_name = expr.mkVar ("ty_" ++ smt_name) 2 ∧
    ∀ other : String, other ≠ smt_name → Input.getTyVar other ≠ Input.getTyVar smt_name := by
  refine ⟨?_, rfl, ?_⟩
  · rw [Input.toSMT_not_byval E type name smt_name attrs s hb]
    simp only [hu, hp, hd, hnn, hnu]
    exact ⟨_, rfl, rfl, rfl, rfl, rfl⟩
  · intro other hne h
    apply hne
    simp only [Input.getTyVar] at h
    injection h with h _
    have hdata := congrArg String.data h
    simp only [String.data_append, List.append_cancel_left_eq] at hdata
    exact String.ext hdata

/-- C7, on the scenario: two 32-bit inputs `a` and `b` without attributes, both
configuration flags off, translated one after the other: no axiom, one
fresh undefined variable each, and the selectors `ty_a` and `ty_b`. -/
theorem input_plain_witness :
    ∃ s1 s2,
      Input.toSMT (intEnv false false) 32 "a" "a" ⟨false, false, false, false, 0, 0, 0⟩
        (mkState [] true 0) = .ok (⟨expr.mkIf
          (expr.eq (expr.extract (expr.mkVar "ty_a" 2) 0 0) (expr.mkUInt 0 1))
          (expr.mkVar "a" 32) (expr.mkFreshVar "undef" 0 (expr.mkVar "" 32)),
          expr.mkIf (expr.eq (expr.extract (expr.mkVar "ty_a" 2) 1 1) (expr.mkUInt 0 1))
            (expr.mkBool true) (expr.mkBool false)⟩, s1) ∧
      Input.toSMT (intEnv false false) 32 "b" "b" ⟨false, false, false, false, 0, 0, 0⟩
        s1 = .ok (⟨expr.mkIf
          (expr.eq (expr.extract (expr.mkVar "ty_b" 2) 0 0) (expr.mkUInt 0 1))
          (expr.mkVar "b" 32) (expr.mkFreshVar "undef" 1 (expr.mkVar "" 32)),
          expr.mkIf (expr.eq (expr.extract (expr.mkVar "ty_b" 2) 1 1) (expr.mkUInt 0 1))
            (expr.mkBool true) (expr.mkBool false)⟩, s2) ∧
      s2.axioms = [] ∧
      s2.undef_vars = [expr.mkFreshVar "undef" 0 (expr.mkVar "" 32),
        expr.mkFreshVar "undef" 1 (expr.mkVar "" 32)] ∧
      Input.getTyVar "a" ≠ Input.getTyVar "b" :=
  ⟨_, _, rfl, rfl, rfl, rfl,
    (input_plain (intEnv false false) 32 "b" "b" ⟨false, false, false, false, 0, 0, 0⟩
      (mkState [] true 0) rfl rfl rfl rfl rfl rfl).2.2 "a" (by decide)⟩

end InputClaims

/-! ## Terminal variants and aggregates -/

section Terminal

variable {Memory Ty : Type}

/-- A fresh variable is not the formula whose sort it takes. -/
theorem mkFreshVar_ne (pfx : String) (id : Nat) (t : expr) : expr.mkFreshVar pfx id t ≠ t := by
  intro h
  have := congrArg sizeOf h
  simp at this

/-- C8. For every type and state: `PoisonValue::toSMT` returns exactly the type's
dummy encoding requested as poisoned, so its `non_poison` component is false;
`UndefValue::toSMT` returns the fresh variable `undef!<counter>` as value, which
is not the dummy value, together with the `non_poison` component of the dummy
encoding requested as non-poisoned, which is true.  That the dummy encoding
carries the requested flag is the contract of the type. -/
theorem poison_undef_non_poison (E : Env Memory Ty) (type : Ty) (name : String)
    (s : State Memory) (hdummy : DummyPoisonFlag E type) :
    Value.toSMT E (Value.PoisonValue type name) s = .ok (E.getDummyValue type false, s) ∧
    (E.getDummyValue type false).non_poison = expr.mkBool false ∧
    (∃ s', Value.toSMT E (Value.UndefValue type name) s =
        .ok (⟨expr.mkFreshVar "undef" s.fresh_id (E.getDummyValue type true).value,
          (E.getDummyValue type true).non_poison⟩, s')) ∧
    (E.getDummyValue type true).non_poison = expr.mkBool true ∧
    expr.mkFreshVar "undef" s.fresh_id (E.getDummyValue type true).value ≠
      (E.getDummyValue type true).value ∧
    ∀ M : expr.Model, ¬ expr.holds M (PoisonValue.toSMT E type s).1.non_poison ∧
      expr.holds M (UndefValue.toSMT E type s).1.non_poison := by
  refine ⟨?_, hdummy false, ⟨(UndefValue.toSMT E type s).2, ?_⟩, hdummy true,
    mkFreshVar_ne _ _ _, ?_⟩
  · simp [Value.toSMT, PoisonValue.toSMT]
  · simp only [Value.toSMT, UndefValue.toSMT]
  · intro M
    simp [PoisonValue.toSMT, UndefValue.toSMT, hdummy false, hdummy true, expr.holds, expr.eval]

/-- C8, on a concrete type: for the 32-bit integer type the poison value is
`(0, false)` and the undef value is `(undef!0, true)`. -/
theorem poison_undef_non_poison_witness :
    DummyPoisonFlag (intEnv false false) 32 ∧
    Value.toSMT (intEnv false false) (Value.PoisonValue 32 "poison") (mkState [] true 0) =
      .ok (⟨expr.mkUInt 0 32, expr.mkBool false⟩, mkState [] true 0) ∧
    ∃ s', Value.toSMT (intEnv false false) (Value.UndefValue 32 "undef") (mkState [] true 0) =
      .ok (⟨expr.mkFreshVar "undef" 0 (expr.mkUInt 0 32), expr.mkBool true⟩, s') :=
  ⟨fun _ => rfl,
    (poison_undef_non_poison (intEnv false false) 32 "poison" (mkState [] true 0)
      (fun _ => rfl)).1,
    (poison_undef_non_poison (intEnv false false) 32 "undef" (mkState [] true 0)
      (fun _ => rfl)).2.2.1⟩

/-- The loop of `AggregateValue::toSMT` returns exactly the threaded translation
of the components. -/
theorem toSMT_vals_iff (E : Env Memory Ty) (vals : List (Value Ty)) (s s' : State Memory)
    (svs : List StateValue) :
    AggregateValue.toSMT_vals E vals s = .ok (svs, s') ↔ Threaded E vals s svs s' := by
  induction vals generalizing s svs with
  | nil =>
    simp only [AggregateValue.toSMT_vals]
    constructor
    · intro h
      injection h with h
      injection h with h1 h2
      subst h1; subst h2
      exact Threaded.nil s
    · intro h
      cases h
      rfl
  | cons v vs ih =>
    cases hv : Value.toSMT E v s with
    | error e =>
      simp only [AggregateValue.toSMT_vals, hv]
      constructor
      · intro h
        cases h
      · intro h
        cases h with
        | cons _ _ _ s1 _ sv svs0 hv' _ =>
          rw [hv] at hv'
          cases hv'
    | ok r =>
      obtain ⟨sv, s1⟩ := r
      cases hvs : AggregateValue.toSMT_vals E vs s1 with
      | error e =>
        simp only [AggregateValue.toSMT_vals, hv, hvs]
        constructor
        · intro h
          cases h
        · intro h
          cases h with
          | cons _ _ _ s1' _ sv' svs0 hv' hvs' =>
            rw [hv] at hv'
            injection hv' with hv'
            injection hv' with h1 h2
            subst h1; subst h2
            have := (ih s1 svs0).2 hvs'
            rw [hvs] at this
            cases this
      | ok r2 =>
        obtain ⟨svs1, s2⟩ := r2
        simp only [AggregateValue.toSMT_vals, hv, hvs]
        constructor
        · intro h
          injection h with h
          injection h with h1 h2
          subst h1; subst h2
          exact Threaded.cons v vs s s1 s2 sv svs1 hv ((ih s1 svs1).1 hvs)
        · intro h
          cases h with
          | cons _ _ _ s1' _ sv' svs0 hv' hvs' =>
            rw [hv] at hv'
            injection hv' with hv'
            injection hv' with h1 h2
            subst h1; subst h2
            have := (ih s1 svs0).2 hvs'
            rw [hvs] at this
            injection this with this
            injection this with h3 h4
            subst h3; subst h4
            rfl

/-- The loop of `AggregateValue::toSMT` fails exactly when some component fails
after the components before it have been translated in order. -/
theorem toSMT_vals_error_iff (E : Env Memory Ty) (vals : List (Value Ty)) (s : State Memory)
    (e : Fatal) :
    AggregateValue.toSMT_vals E vals s = .error e ↔
      ∃ pre v post svs s1, vals = pre ++ v :: post ∧ Threaded E pre s svs s1 ∧
        Value.toSMT E v s1 = .error e := by
  induction vals generalizing s with
  | nil =>
    simp only [AggregateValue.toSMT_vals]
    constructor
    · intro h
      cases h
    · rintro ⟨pre, v, post, _, _, h, _⟩
      simp at h
  | cons v vs ih =>
    cases hv : Value.toSMT E v s with
    | error e0 =>
      simp only [AggregateValue.toSMT_vals, hv]
      constructor
      · intro h
        injection h with h
        subst h
        exact ⟨[], v, vs, [], s, rfl, Threaded.nil s, hv⟩
      · rintro ⟨pre, w, post, svs, s1, hsplit, hthr, hw⟩
        cases pre with
        | nil =>
          simp only [List.nil_append, List.cons.injEq] at hsplit
          obtain ⟨h1, _⟩ := hsplit
          subst h1
          cases hthr
          rw [hv] at hw
          injection hw with hw
          rw [hw]
        | cons p pre =>
          simp only [List.cons_append, List.cons.injEq] at hsplit
          obtain ⟨h1, _⟩ := hsplit
          subst h1
          cases hthr with
          | cons _ _ _ _ _ _ _ hv' _ =>
            rw [hv] at hv'
            cases hv'
    | ok r =>
      obtain ⟨sv, s1⟩ := r
      simp only [AggregateValue.toSMT_vals, hv]
      have hstep : (match AggregateValue.toSMT_vals E vs s1 with
          | .error e => (Except.error e : Except Fatal (List StateValue × State Memory))
          | .ok (state_vals, s) => .ok (sv :: state_vals, s)) = .error e ↔
          AggregateValue.toSMT_vals E vs s1 = .error e := by
        cases AggregateValue.toSMT_vals E vs s1 with
        | error e1 => simp
        | ok r2 => simp
      rw [hstep, ih s1]
      constructor
      · rintro ⟨pre, w, post, svs, s2, hsplit, hthr, hw⟩
        exact ⟨v :: pre, w, post, sv :: svs, s2, by simp [hsplit],
          Threaded.cons v pre s s1 s2 sv svs hv hthr, hw⟩
      · rintro ⟨pre, w, post, svs, s2, hsplit, hthr, hw⟩
        cases pre with
        | nil =>
          simp only [List.nil_append, List.cons.injEq] at hsplit
          obtain ⟨h1, _⟩ := hsplit
          subst h1
          cases hthr
          rw [hv] at hw
          cases hw
        | cons p pre =>
          simp only [List.cons_append, List.cons.injEq] at hsplit
          obtain ⟨h1, h2⟩ := hsplit
          subst h1
          cases hthr with
          | cons _ _ _ s1' _ sv' svs0 hv' hvs' =>
            rw [hv] at hv'
            injection hv' with hv'
            injection hv' with h3 h4
            subst h3; subst h4
            exact ⟨pre, w, post, svs0, s2, h2, hvs', hw⟩

/-- A threaded translation yields one formula pair per component. -/
theorem Threaded.length_eq (E : Env Memory Ty) (vals : List (Value Ty)) (s s' : State Memory)
    (svs : List StateValue) (h : Threaded E vals s svs s') : svs.length = vals.length := by
  induction h with
  | nil _ => rfl
  | cons _ _ _ _ _ _ _ _ _ ih => simp [ih]

/-- C9. `AggregateValue::toSMT` translates the components one after the other, in
list order, each exactly once, the state being threaded from left to right,
and returns `aggregateVals` of the aggregate type applied to the list of the
component results in the same order: it returns `(r, s')` exactly when there is
a threaded translation of the components from `s` to `s'` with results `svs`
(one per component) and `r` is `aggregateVals` of `svs`; and it fails exactly
when a component fails after the ones before it have been translated. -/
theorem aggregate_toSMT_threads (E : Env Memory Ty) (type : Ty) (name : String)
    (vals : List (Value Ty)) (s : State Memory) :
    (∀ r s', Value.toSMT E (Value.AggregateValue type name vals) s = .ok (r, s') ↔
      ∃ svs, Threaded E vals s svs s' ∧ svs.length = vals.length ∧
        r = E.aggregateVals type svs) ∧
    (∀ e, Value.toSMT E (Value.AggregateValue type name vals) s = .error e ↔
      ∃ pre v post svs s1, vals = pre ++ v :: post ∧ Threaded E pre s svs s1 ∧
        Value.toSMT E v s1 = .error e) := by
  constructor
  · intro r s'
    simp only [Value.toSMT]
    cases hl : AggregateValue.toSMT_vals E vals s with
    | error e =>
      constructor
      · intro h
        cases h
      · rintro ⟨svs, hthr, _, _⟩
        have := (toSMT_vals_iff E vals s s' svs).2 hthr
        rw [hl] at this
        cases this
    | ok r0 =>
      obtain ⟨svs0, s0⟩ := r0
      have hthr0 := (toSMT_vals_iff E vals s s0 svs0).1 hl
      constructor
      · intro h
        injection h with h
        injection h with h1 h2
        subst h1; subst h2
        exact ⟨svs0, hthr0, Threaded.length_eq E vals s s0 svs0 hthr0, rfl⟩
      · rintro ⟨svs, hthr, _, hr⟩
        have := (toSMT_vals_iff E vals s s' svs).2 hthr
        rw [hl] at this
        injection this with this
        injection this with h1 h2
        subst h1; subst h2
        rw [hr]
  · intro e
    rw [← toSMT_vals_error_iff E vals s e]
    simp only [Value.toSMT]
    cases AggregateValue.toSMT_vals E vals s with
    | error e1 => simp
    | ok r0 => simp

/-- C9, on a concrete run: an aggregate of the input `a` and an undef value; the
undef value sees the state left by `a` (the counter is at 1), and the result
is the aggregate of the two pairs in order. -/
theorem aggregate_toSMT_threads_witness :
    ∃ sva svu s1 s2,
      Value.toSMT (intEnv false false)
        (Value.Input 32 "a" "a" ⟨false, false, false, false, 0, 0, 0⟩) (mkState [] true 0) =
          .ok (sva, s1) ∧
      Value.toSMT (intEnv false false) (Value.UndefValue 32 "undef") s1 = .ok (svu, s2) ∧
      svu.value = expr.mkFreshVar "undef" 1 (expr.mkUInt 0 32) ∧
      Value.toSMT (intEnv false false)
        (Value.AggregateValue 64 "agg"
          [Value.Input 32 "a" "a" ⟨false, false, false, false, 0, 0, 0⟩,
            Value.UndefValue 32 "undef"]) (mkState [] true 0) =
          .ok ((intEnv false false).aggregateVals 64 [sva, svu], s2) :=
  ⟨_, _, _, _, rfl, rfl, rfl,
    ((aggregate_toSMT_threads (intEnv false false) 64 "agg"
      [Value.Input 32 "a" "a" ⟨false, false, false, false, 0, 0, 0⟩,
        Value.UndefValue 32 "undef"] (mkState [] true 0)).1 _ _).2
      ⟨_, Threaded.cons _ _ _ _ _ _ _ rfl (Threaded.cons _ _ _ _ _ _ _ rfl (Threaded.nil _)),
        rfl, rfl⟩⟩

/-- The loop of `AggregateValue::getTypeConstraints`: the constraints of the
components that are not instructions are conjoined to `r` in order, and the
types of all components are appended to `types` in order. -/
theorem constraintsLoop_eq (E : Env Memory Ty) (vals : List (Value Ty)) (r : expr)
    (types : List Ty) :
    AggregateValue.constraintsLoop E vals r types =
      (((vals.filter (fun v => !v.isInstr)).map (Value.getTypeConstraints E)).foldl
        expr.and r, types ++ vals.map Value.getType) := by
  induction vals generalizing r types with
  | nil => simp [AggregateValue.constraintsLoop]
  | cons v vs ih =>
    cases hv : v.isInstr with
    | true => simp [AggregateValue.constraintsLoop, hv, ih]
    | false => simp [AggregateValue.constraintsLoop, hv, ih]

/-- A left-nested conjunction holds exactly when all its members hold. -/
theorem holds_foldl_and (M : expr.Model) (l : List expr) (r : expr) :
    expr.holds M (l.foldl expr.and r) ↔ expr.holds M r ∧ ∀ c ∈ l, expr.holds M c := by
  induction l generalizing r with
  | nil => simp
  | cons c l ih =>
    rw [List.foldl_cons, ih]
    simp only [expr.holds, expr.eval, List.mem_cons, forall_eq_or_imp]
    constructor
    · rintro ⟨h1, h2⟩
      by_cases hc : expr.eval M r = 1 ∧ expr.eval M c = 1
      · exact ⟨hc.1, hc.2, h2⟩
      · simp [hc] at h1
    · rintro ⟨h1, h2, h3⟩
      exact ⟨by simp [h1, h2], h3⟩

/-- C10. The type constraints of an aggregate are the conjunction of the
constraint of the aggregate's own type, then the constraints of exactly the
components that are not instructions, in order, and finally
`enforceAggregateType` applied to the list of the types of all components in
order, those of the instruction components included.  So the formula holds in
a model exactly when these three parts hold. -/
theorem aggregate_getTypeConstraints (E : Env Memory Ty) (type : Ty) (name : String)
    (vals : List (Value Ty)) :
    Value.getTypeConstraints E (Value.AggregateValue type name vals) =
      expr.and
        (((vals.filter (fun v => !v.isInstr)).map (Value.getTypeConstraints E)).foldl
          expr.and (E.getTypeConstraints type))
        (E.enforceAggregateType type (vals.map Value.getType)) ∧
    ∀ M : expr.Model,
      expr.holds M (Value.getTypeConstraints E (Value.AggregateValue type name vals)) ↔
        (expr.holds M (E.getTypeConstraints type) ∧
          (∀ v ∈ vals, v.isInstr = false → expr.holds M (Value.getTypeConstraints E v)) ∧
          expr.holds M (E.enforceAggregateType type (vals.map Value.getType))) := by
  have heq : Value.getTypeConstraints E (Value.AggregateValue type name vals) =
      expr.and
        (((vals.filter (fun v => !v.isInstr)).map (Value.getTypeConstraints E)).foldl
          expr.and (E.getTypeConstraints type))
        (E.enforceAggregateType type (vals.map Value.getType)) := by
    simp only [Value.getTypeConstraints, constraintsLoop_eq, List.nil_append]
  refine ⟨heq, ?_⟩
  intro M
  rw [heq]
  have hand : ∀ a b : expr, expr.holds M (expr.and a b) ↔ expr.holds M a ∧ expr.holds M b := by
    intro a b
    simp only [expr.holds, expr.eval]
    by_cases h : expr.eval M a = 1 ∧ expr.eval M b = 1
    · simp [h]
    · simp [h]
  rw [hand, holds_foldl_and]
  constructor
  · rintro ⟨⟨h1, h2⟩, h3⟩
    refine ⟨h1, ?_, h3⟩
    intro v hv hi
    apply h2
    exact List.mem_map.2 ⟨v, List.mem_filter.2 ⟨hv, by simp [hi]⟩, rfl⟩
  · rintro ⟨h1, h2, h3⟩
    refine ⟨⟨h1, ?_⟩, h3⟩
    intro c hc
    obtain ⟨v, hv, rfl⟩ := List.mem_map.1 hc
    obtain ⟨hv1, hv2⟩ := List.mem_filter.1 hv
    exact h2 v hv1 (by simpa using hv2)

/-- C10, on a concrete aggregate: of the components input `a`, instruction 7 and
an undef value, the instruction contributes its type (the width 16) to the
structural constraint but not its own constraint. -/
theorem aggregate_getTypeConstraints_witness :
    Value.getTypeConstraints (intEnv false false)
      (Value.AggregateValue 80 "agg"
        [Value.Input 32 "a" "a" ⟨false, false, false, false, 0, 0, 0⟩,
          Value.Instr 16 "%t" 7, Value.UndefValue 32 "undef"]) =
      expr.and (expr.and (expr.and (expr.mkBool true) (expr.mkBool true)) (expr.mkBool true))
        ((intEnv false false).enforceAggregateType 80 [32, 16, 32]) :=
  (aggregate_getTypeConstraints (intEnv false false) 80 "agg"
    [Value.Input 32 "a" "a" ⟨false, false, false, false, 0, 0, 0⟩,
      Value.Instr 16 "%t" 7, Value.UndefValue 32 "undef"]).1

end Terminal

/-! ## Meaning of the selector -/

section Selector

variable {Memory Ty : Type}

/-- The conditional on bit 0 of a formula `t`. -/
theorem eval_mkIf_bit0 (M : expr.Model) (t a b : expr) :
    expr.eval M (expr.mkIf ((t.extract 0 0).eqUInt 0) a b) =
      if expr.eval M t % 2 = 0 then expr.eval M a else expr.eval M b := by
  simp only [expr.eval, expr.eqUInt, expr.bits]
  by_cases h : expr.eval M t % 2 = 0
  · simp [h]
  · simp [h]

/-- The conditional on bit 1 of a formula `t`. -/
theorem eval_mkIf_bit1 (M : expr.Model) (t a b : expr) :
    expr.eval M (expr.mkIf ((t.extract 1 1).eqUInt 0) a b) =
      if expr.eval M t / 2 % 2 = 0 then expr.eval M a else expr.eval M b := by
  simp only [expr.eval, expr.eqUInt, expr.bits]
  by_cases h : expr.eval M t / 2 % 2 = 0
  · simp [h]
  · simp [h]

/-- C11. Selector meaning, for an input for which neither `never_undef` nor
`never_poison` holds: the translation returns, and in every model, whose
selector value is one of 0, 1, 2, 3: with selector 00 the value evaluates to the
normal input encoding and the poison-freedom component to the non-poisoned
marker; with selector 01 the value evaluates to the undefined variant and the
poison-freedom component to the non-poisoned marker; with selector 10 or 11
the poison-freedom component evaluates to the poisoned marker. -/
theorem input_selector_meaning (E : Env Memory Ty) (type : Ty) (name smt_name : String)
    (attrs : ParamAttrs) (s : State Memory)
    (hnu : (E.disable_undef_input || attrs.ByVal || attrs.Dereferenceable ||
      attrs.NoUndef) = false)
    (hnp : (E.disable_poison_input || attrs.ByVal || attrs.Dereferenceable ||
      attrs.NonNull || attrs.NoUndef) = false) :
    ∃ sv s', Input.toSMT E type name smt_name attrs s = .ok (sv, s') ∧
      ∀ M : expr.Model,
        expr.eval M (Input.getTyVar smt_name) < 4 ∧
        (expr.eval M (Input.getTyVar smt_name) = 0 →
          expr.eval M sv.value = expr.eval M (E.mkInput type s smt_name attrs) ∧
          expr.eval M sv.non_poison = expr.eval M (E.getDummyValue type true).non_poison) ∧
        (expr.eval M (Input.getTyVar smt_name) = 1 →
          expr.eval M sv.value = expr.eval M (E.mkUndefInput type s attrs).1.1 ∧
          expr.eval M sv.non_poison = expr.eval M (E.getDummyValue type true).non_poison) ∧
        (expr.eval M (Input.getTyVar smt_name) = 2 ∨
            expr.eval M (Input.getTyVar smt_name) = 3 →
          expr.eval M sv.non_poison =
            expr.eval M (E.getDummyValue type false).non_poison) := by
  have hb : attrs.ByVal = false := by
    cases h : attrs.ByVal
    · rfl
    · simp [h] at hnu
  have hnu' : (E.disable_undef_input || attrs.Dereferenceable || attrs.NoUndef) = false := by
    simpa [hb] using hnu
  have hnp' : (E.disable_poison_input || attrs.Dereferenceable || attrs.NonNull ||
      attrs.NoUndef) = false := by
    simpa [hb] using hnp
  rw [Input.toSMT_not_byval E type name smt_name attrs s hb]
  simp only [hnu', hnp']
  refine ⟨_, _, rfl, ?_⟩
  intro M
  refine ⟨eval_getTyVar_lt M smt_name, ?_, ?_, ?_⟩
  · intro h0
    simp [eval_mkIf_bit0, eval_mkIf_bit1, h0]
  · intro h1
    simp [eval_mkIf_bit0, eval_mkIf_bit1, h1]
  · intro h23
    rcases h23 with h | h
    · simp [eval_mkIf_bit1, h]
    · simp [eval_mkIf_bit1, h]

/-- C11, on a concrete input: for the 32-bit input `x` without attributes, in a
model where the selector is 1 and the fresh variable `undef!0` is 7, the value
evaluates to 7 and the poison-freedom component to true. -/
theorem input_selector_meaning_witness :
    ∃ sv s', Input.toSMT (intEnv false false) 32 "x" "x" ⟨false, false, false, false, 0, 0, 0⟩
        (mkState [] true 0) = .ok (sv, s') ∧
      expr.eval ⟨fun _ _ => 1, fun _ _ => 7, fun _ _ => 0, fun _ _ _ => 0⟩ sv.value = 7 ∧
      expr.eval ⟨fun _ _ => 1, fun _ _ => 7, fun _ _ => 0, fun _ _ _ => 0⟩ sv.non_poison = 1 := by
  obtain ⟨sv, s', h, hM⟩ := input_selector_meaning (intEnv false false) 32 "x" "x"
    ⟨false, false, false, false, 0, 0, 0⟩ (mkState [] true 0) rfl rfl
  obtain ⟨_, _, h1, _⟩ := hM ⟨fun _ _ => 1, fun _ _ => 7, fun _ _ => 0, fun _ _ _ => 0⟩
  exact ⟨sv, s', h, h1 rfl⟩

end Selector

/-! ## The global table across calls -/

section GlobalTable

variable {Memory Ty : Type}

/-- The branch of `get_global` for a name that is not in the table. -/
theorem get_global_absent (E : Env Memory Ty) (s : State Memory) (n : String) (size : expr)
    (align : Nat) (isconst : Bool) (hl : s.hasGlobalVarBid n = none) :
    get_global E s n size align isconst =
      .ok ((E.alloc s.memory size align
          (if isconst then BlockKind.CONSTGLOBAL else BlockKind.GLOBAL)
          (expr.mkBool true) (expr.mkBool true) none).first,
        (E.alloc s.memory size align
          (if isconst then BlockKind.CONSTGLOBAL else BlockKind.GLOBAL)
          (expr.mkBool true) (expr.mkBool true) none).bid,
        (s.setMemory (E.alloc s.memory size align
          (if isconst then BlockKind.CONSTGLOBAL else BlockKind.GLOBAL)
          (expr.mkBool true) (expr.mkBool true) none).memory).addGlobalVarBid n
          (E.alloc s.memory size align
            (if isconst then BlockKind.CONSTGLOBAL else BlockKind.GLOBAL)
            (expr.mkBool true) (expr.mkBool true) none).bid) := by
  simp only [get_global, hl]

/-- The branch of `get_global` for a name recorded but not yet allocated, in the
second program. -/
theorem get_global_unallocated (E : Env Memory Ty) (s : State Memory) (n : String)
    (size : expr) (align b : Nat) (isconst : Bool)
    (hl : s.hasGlobalVarBid n = some (b, false)) (htgt : s.isSource = false) :
    get_global E s n size align isconst =
      .ok ((E.alloc s.memory size align
          (if isconst then BlockKind.CONSTGLOBAL else BlockKind.GLOBAL)
          (expr.mkBool true) (expr.mkBool true) (some b)).first,
        b,
        (s.setMemory (E.alloc s.memory size align
          (if isconst then BlockKind.CONSTGLOBAL else BlockKind.GLOBAL)
          (expr.mkBool true) (expr.mkBool true) (some b)).memory).markGlobalAsAllocated n) := by
  simp only [get_global, hl, htgt]
  rfl

/-- The branch of `get_global` for a name recorded as allocated. -/
theorem get_global_allocated (E : Env Memory Ty) (s : State Memory) (n : String)
    (size : expr) (align b : Nat) (isconst : Bool)
    (hl : s.hasGlobalVarBid n = some (b, true)) :
    get_global E s n size align isconst = .ok (E.mkPointer s.memory b false, b, s) := by
  simp [get_global, hl]

/-- After a successful `get_global` the table records the name at the returned
block id, marked allocated. -/
theorem get_global_records (E : Env Memory Ty) (s s' : State Memory) (n : String)
    (size ptr : expr) (align bid : Nat) (isconst : Bool)
    (h : get_global E s n size align isconst = .ok (ptr, bid, s')) :
    s'.hasGlobalVarBid n = some (bid, true) := by
  cases hl : s.hasGlobalVarBid n with
  | none =>
    rw [get_global_absent E s n size align isconst hl] at h
    injection h with h
    injection h with _ h
    injection h with hb hs
    subst hs; subst hb
    have := lookup_append_entry s.glbvar_bids n n
      (E.alloc s.memory size align
        (if isconst then BlockKind.CONSTGLOBAL else BlockKind.GLOBAL)
        (expr.mkBool true) (expr.mkBool true) none).bid
    have hl' : s.glbvar_bids.lookup n = none := hl
    rw [hl'] at this
    simpa [State.hasGlobalVarBid, State.addGlobalVarBid, State.setMemory] using this
  | some v =>
    obtain ⟨c, flag⟩ := v
    cases flag with
    | true =>
      rw [get_global_allocated E s n size align c isconst hl] at h
      injection h with h
      injection h with _ h
      injection h with hb hs
      subst hs; subst hb
      exact hl
    | false =>
      cases hsrc : s.isSource with
      | true => simp [get_global, hl, hsrc] at h
      | false =>
        rw [get_global_unallocated E s n size align c isconst hl hsrc] at h
        injection h with h
        injection h with _ h
        injection h with hb hs
        subst hs; subst hb
        exact lookup_mark_self s.glbvar_bids n c false hl

/-- C12. Global-table invariant, for every call of `get_global` that succeeds:
(1) every name recorded before the call is still recorded, at the same block
id; (2) the entries of the names other than `n` are unchanged, flag included;
(3) afterwards `n` is recorded at the returned block id and marked allocated;
and when `n` was not recorded, the id is the one the memory model chose for
the fresh block, and the table is the old one with that single entry added. -/
theorem get_global_table_invariant (E : Env Memory Ty) (s s' : State Memory) (n : String)
    (size ptr : expr) (align bid : Nat) (isconst : Bool)
    (h : get_global E s n size align isconst = .ok (ptr, bid, s')) :
    (∀ m b f, s.hasGlobalVarBid m = some (b, f) → ∃ f', s'.hasGlobalVarBid m = some (b, f')) ∧
    (∀ m, m ≠ n → s'.hasGlobalVarBid m = s.hasGlobalVarBid m) ∧
    s'.hasGlobalVarBid n = some (bid, true) ∧
    (s.hasGlobalVarBid n = none →
      bid = (E.alloc s.memory size align
        (if isconst then BlockKind.CONSTGLOBAL else BlockKind.GLOBAL)
        (expr.mkBool true) (expr.mkBool true) none).bid ∧
      s'.glbvar_bids = s.glbvar_bids ++ [(n, bid, true)]) := by
  have hself := get_global_records E s s' n size ptr align bid isconst h
  have hother : ∀ m, m ≠ n → s'.hasGlobalVarBid m = s.hasGlobalVarBid m := by
    intro m hm
    cases hl : s.hasGlobalVarBid n with
    | none =>
      rw [get_global_absent E s n size align isconst hl] at h
      injection h with h
      injection h with _ h
      injection h with _ hs
      subst hs
      have := lookup_append_entry s.glbvar_bids n m
        (E.alloc s.memory size align
          (if isconst then BlockKind.CONSTGLOBAL else BlockKind.GLOBAL)
          (expr.mkBool true) (expr.mkBool true) none).bid
      simp only [State.hasGlobalVarBid, State.addGlobalVarBid, State.setMemory]
      rw [this]
      cases s.glbvar_bids.lookup m with
      | none => simp [hm]
      | some v => rfl
    | some v =>
      obtain ⟨c, flag⟩ := v
      cases flag with
      | true =>
        rw [get_global_allocated E s n size align c isconst hl] at h
        injection h with h
        injection h with _ h
        injection h with _ hs
        subst hs
        rfl
      | false =>
        cases hsrc : s.isSource with
        | true => simp [get_global, hl, hsrc] at h
        | false =>
          rw [get_global_unallocated E s n size align c isconst hl hsrc] at h
          injection h with h
          injection h with _ h
          injection h with _ hs
          subst hs
          exact lookup_mark_other s.glbvar_bids n m hm
  refine ⟨?_, hother, hself, ?_⟩
  · intro m b f hm
    by_cases hmn : m = n
    · subst hmn
      refine ⟨true, ?_⟩
      rw [hself]
      cases hl : s.hasGlobalVarBid m with
      | none => rw [hl] at hm; cases hm
      | some v =>
        obtain ⟨c, flag⟩ := v
        rw [hl] at hm
        injection hm with hm
        injection hm with hc _
        subst hc
        cases flag with
        | true =>
          rw [get_global_allocated E s m size align c isconst hl] at h
          injection h with h
          injection h with _ h
          injection h with hb _
          rw [hb]
        | false =>
          cases hsrc : s.isSource with
          | true => simp [get_global, hl, hsrc] at h
          | false =>
            rw [get_global_unallocated E s m size align c isconst hl hsrc] at h
            injection h with h
            injection h with _ h
            injection h with hb _
            rw [hb]
    · exact ⟨f, by rw [hother m hmn, hm]⟩
  · intro hl
    rw [get_global_absent E s n size align isconst hl] at h
    injection h with h
    injection h with _ h
    injection h with hb hs
    subst hs; subst hb
    exact ⟨rfl, rfl⟩

/-- C12, on a concrete run: with `h -> 2` recorded, `get_global` for the absent
name `g` records `g -> 5`, the id chosen by the memory model, and keeps `h -> 2`. -/
theorem get_global_table_invariant_witness :
    ∃ ptr s', get_global (intEnv false false) (mkState [("h", 2, false)] true 5) "g"
        (expr.mkUInt 8 64) 8 true = .ok (ptr, 5, s') ∧
      s'.hasGlobalVarBid "h" = some (2, false) ∧ s'.hasGlobalVarBid "g" = some (5, true) := by
  have h : get_global (intEnv false false) (mkState [("h", 2, false)] true 5) "g"
      (expr.mkUInt 8 64) 8 true = .ok (expr.sym "blk" 5, 5,
        ((mkState [("h", 2, false)] true 5).setMemory
          ((intEnv false false).alloc (mkState [("h", 2, false)] true 5).memory
            (expr.mkUInt 8 64) 8 BlockKind.CONSTGLOBAL (expr.mkBool true) (expr.mkBool true)
            none).memory).addGlobalVarBid "g" 5) := rfl
  obtain ⟨_, h2, h3, _⟩ := get_global_table_invariant (intEnv false false)
    (mkState [("h", 2, false)] true 5) _ "g" (expr.mkUInt 8 64) _ 8 5 true h
  refine ⟨_, _, h, ?_, h3⟩
  rw [h2 "h" (by decide)]
  rfl

/-- C13. Repeated translation of a global: after one successful
`GlobalVariable::toSMT` on `s`, which resolves the name to a block id `bid` and
leaves the state `s1`, a second translation on `s1` succeeds, performs no
allocation (its outcome is the same whatever the `alloc` operation is), leaves
the whole state, so the global table and the memory, unchanged, and returns the
pointer view onto the same block id `bid` with poison-freedom true. -/
theorem globalVariable_toSMT_again (E : Env Memory Ty) (g : String)
    (allocsize align : Nat) (isconst : Bool) (s s1 : State Memory) (sv1 : StateValue)
    (h : GlobalVariable.toSMT E g allocsize align isconst s = .ok (sv1, s1)) :
    ∃ bid, get_global E s g (expr.mkUInt allocsize E.bits_size_t) align isconst =
        .ok (sv1.value, bid, s1) ∧
      s1.hasGlobalVarBid g = some (bid, true) ∧
      get_global E s1 g (expr.mkUInt allocsize E.bits_size_t) align isconst =
        .ok (E.mkPointer s1.memory bid false, bid, s1) ∧
      GlobalVariable.toSMT E g allocsize align isconst s1 =
        .ok (⟨E.mkPointer s1.memory bid false, expr.mkBool true⟩, s1) ∧
      ∀ a, GlobalVariable.toSMT (E.withAlloc a) g allocsize align isconst s1 =
        .ok (⟨E.mkPointer s1.memory bid false, expr.mkBool true⟩, s1) := by
  cases hg : get_global E s g (expr.mkUInt allocsize E.bits_size_t) align isconst with
  | error e =>
    simp only [GlobalVariable.toSMT, hg] at h
    cases h
  | ok r =>
    obtain ⟨ptr, bid, s0⟩ := r
    simp only [GlobalVariable.toSMT, hg] at h
    injection h with h
    injection h with hsv hs
    subst hs; subst hsv
    have hrec := get_global_records E s s0 g _ ptr align bid isconst hg
    have h2 := get_global_allocated E s0 g (expr.mkUInt allocsize E.bits_size_t) align bid
      isconst hrec
    refine ⟨bid, rfl, hrec, h2, ?_, ?_⟩
    · simp only [GlobalVariable.toSMT, h2]
    · intro a
      have h3 := get_global_allocated (E.withAlloc a) s0 g
        (expr.mkUInt allocsize (E.withAlloc a).bits_size_t) align bid isconst hrec
      simp only [GlobalVariable.toSMT, h3]
      rfl

/-- C13, on a concrete run: the constant global `g` (8 bytes, align 8) translated
twice from the empty table: the first call allocates block 5, the second one
returns the view onto block 5 and leaves the one-entry allocation log as it is. -/
theorem globalVariable_toSMT_again_witness :
    ∃ sv1 s1, GlobalVariable.toSMT (intEnv false false) "g" 8 8 true (mkState [] true 5) =
        .ok (sv1, s1) ∧
      GlobalVariable.toSMT (intEnv false false) "g" 8 8 true s1 =
        .ok (⟨expr.sym "blk" 5, expr.mkBool true⟩, s1) ∧
      s1.memory.allocs = [(expr.mkUInt 8 64, 8, BlockKind.CONSTGLOBAL, 5)] := by
  have h : GlobalVariable.toSMT (intEnv false false) "g" 8 8 true (mkState [] true 5) =
      .ok (⟨expr.sym "blk" 5, expr.mkBool true⟩,
        ((mkState [] true 5).setMemory
          ((intEnv false false).alloc (mkState [] true 5).memory
            (expr.mkUInt 8 64) 8 BlockKind.CONSTGLOBAL (expr.mkBool true) (expr.mkBool true)
            none).memory).addGlobalVarBid "g" 5) := rfl
  obtain ⟨bid, h1, _, _, h4, _⟩ := globalVariable_toSMT_again (intEnv false false) "g" 8 8 true
    (mkState [] true 5) _ _ h
  have hb : bid = 5 := by
    have h1' : get_global (intEnv false false) (mkState [] true 5) "g" (expr.mkUInt 8 64) 8
        true = .ok (expr.sym "blk" 5, 5,
          ((mkState [] true 5).setMemory
            ((intEnv false false).alloc (mkState [] true 5).memory
              (expr.mkUInt 8 64) 8 BlockKind.CONSTGLOBAL (expr.mkBool true) (expr.mkBool true)
              none).memory).addGlobalVarBid "g" 5) := rfl
    have h1'' : get_global (intEnv false false) (mkState [] true 5) "g" (expr.mkUInt 8 64) 8
        true = .ok (expr.sym "blk" 5, bid, _) := h1
    rw [h1'] at h1''
    injection h1'' with h1''
    injection h1'' with _ h1''
    injection h1'' with hb _
    exact hb.symm
  subst hb
  exact ⟨_, _, h, h4, rfl⟩

end GlobalTable

/-! ## The axioms of an input -/

section InputAxioms

variable {Memory Ty : Type}

/-- The value an input translation returns: the pointer of `get_global` for a
by-value input, the type's input encoding when `never_undef` holds otherwise,
and else the conditional on bit 0 of the selector. -/
theorem Input.toSMT_value (E : Env Memory Ty) (type : Ty) (name smt_name : String)
    (attrs : ParamAttrs) (s s' : State Memory) (sv : StateValue)
    (h : Input.toSMT E type name smt_name attrs s = .ok (sv, s')) :
    (attrs.ByVal = true →
      (∃ bid s1, get_global E s name (expr.mkUInt attrs.blockSize E.bits_size_t) attrs.align
        false = .ok (sv.value, bid, s1)) ∧
      sv.non_poison = (E.getDummyValue type true).non_poison) ∧
    (attrs.ByVal = false →
      sv.value = (if (E.disable_undef_input || attrs.Dereferenceable || attrs.NoUndef) then
          E.mkInput type s smt_name attrs
        else expr.mkIf (((Input.getTyVar smt_name).extract 0 0).eqUInt 0)
          (E.mkInput type s smt_name attrs) (E.mkUndefInput type s attrs).1.1) ∧
      sv.non_poison = (if (E.disable_poison_input || attrs.Dereferenceable || attrs.NonNull ||
          attrs.NoUndef) then (E.getDummyValue type true).non_poison
        else expr.mkIf (((Input.getTyVar smt_name).extract 1 1).eqUInt 0)
          (E.getDummyValue type true).non_poison (E.getDummyValue type false).non_poison)) := by
  constructor
  · intro hb
    cases hg : get_global E s name (expr.mkUInt attrs.blockSize E.bits_size_t)
        attrs.align false with
    | error e =>
      rw [Input.toSMT_byval_error E type name smt_name attrs s e hb hg] at h
      cases h
    | ok r =>
      obtain ⟨ptr, bid, s1⟩ := r
      rw [Input.toSMT_byval E type name smt_name attrs s s1 ptr bid hb hg] at h
      injection h with h
      injection h with hsv _
      subst hsv
      exact ⟨⟨bid, s1, rfl⟩, rfl⟩
  · intro hb
    rw [Input.toSMT_not_byval E type name smt_name attrs s hb] at h
    simp only at h
    injection h with h
    injection h with hsv _
    subst hsv
    exact ⟨rfl, rfl⟩

/-- C14. Selector axiom table.  With `never_undef` = disable_undef_input or ByVal
or Dereferenceable or NoUndef and `never_poison` = disable_poison_input or ByVal
or Dereferenceable or NonNull or NoUndef, a translation that returns has
appended to the axioms first the dereferenceability axiom, if the attribute is
set, and then the selector axioms: exactly one when `never_undef` or
`never_poison` holds, none otherwise; it is `ty == 0` when both hold,
`ty.extract(0, 0) == 0` when only `never_undef` holds, and
`ty.extract(1, 1) == 0` when only `never_poison` holds.  The translation returns
unless the input is by-value and `get_global` fails its assertion. -/
theorem input_selector_axiom_table (E : Env Memory Ty) (type : Ty) (name smt_name : String)
    (attrs : ParamAttrs) (s : State Memory) :
    ((∃ sv s', Input.toSMT E type name smt_name attrs s = .ok (sv, s')) ∨
      (attrs.ByVal = true ∧
        get_global E s name (expr.mkUInt attrs.blockSize E.bits_size_t) attrs.align false =
          .error Fatal.assertion ∧
        Input.toSMT E type name smt_name attrs s = .error Fatal.assertion)) ∧
    ∀ sv s', Input.toSMT E type name smt_name attrs s = .ok (sv, s') →
      ∃ selector_axioms : List expr,
        s'.axioms = s.axioms ++
          ((if attrs.Dereferenceable then
              [E.isDereferenceable s'.memory sv.value attrs.derefBytes (E.bits_byte / 8) false]
            else []) ++ selector_axioms) ∧
        selector_axioms.length =
          (if (E.disable_undef_input || attrs.ByVal || attrs.Dereferenceable || attrs.NoUndef) ||
              (E.disable_poison_input || attrs.ByVal || attrs.Dereferenceable ||
                attrs.NonNull || attrs.NoUndef) then 1 else 0) ∧
        ((E.disable_undef_input || attrs.ByVal || attrs.Dereferenceable || attrs.NoUndef) = true →
          (E.disable_poison_input || attrs.ByVal || attrs.Dereferenceable || attrs.NonNull ||
            attrs.NoUndef) = true →
          selector_axioms = [expr.eq (Input.getTyVar smt_name) (expr.mkUInt 0 2)]) ∧
        ((E.disable_undef_input || attrs.ByVal || attrs.Dereferenceable || attrs.NoUndef) = true →
          (E.disable_poison_input || attrs.ByVal || attrs.Dereferenceable || attrs.NonNull ||
            attrs.NoUndef) = false →
          selector_axioms =
            [expr.eq (expr.extract (Input.getTyVar smt_name) 0 0) (expr.mkUInt 0 1)]) ∧
        ((E.disable_undef_input || attrs.ByVal || attrs.Dereferenceable || attrs.NoUndef) = false →
          (E.disable_poison_input || attrs.ByVal || attrs.Dereferenceable || attrs.NonNull ||
            attrs.NoUndef) = true →
          selector_axioms =
            [expr.eq (expr.extract (Input.getTyVar smt_name) 1 1) (expr.mkUInt 0 1)]) ∧
        ((E.disable_undef_input || attrs.ByVal || attrs.Dereferenceable || attrs.NoUndef) = false →
          (E.disable_poison_input || attrs.ByVal || attrs.Dereferenceable || attrs.NonNull ||
            attrs.NoUndef) = false →
          selector_axioms = []) := by
  refine ⟨Input.toSMT_total E type name smt_name attrs s, ?_⟩
  intro sv s' h
  refine ⟨_, Input.toSMT_axioms E type name smt_name attrs s s' sv h, ?_, ?_, ?_, ?_, ?_⟩
  · cases (E.disable_undef_input || attrs.ByVal || attrs.Dereferenceable || attrs.NoUndef) <;>
      cases (E.disable_poison_input || attrs.ByVal || attrs.Dereferenceable || attrs.NonNull ||
        attrs.NoUndef) <;> rfl
  · intro h1 h2
    simp only [h1, h2, if_true]
    rfl
  · intro h1 h2
    simp only [h1, h2, if_true]
    rfl
  · intro h1 h2
    simp only [h1, h2, if_true]
    rfl
  · intro h1 h2
    simp only [h1, h2]
    rfl

/-- C14, on a concrete input: the 32-bit input `x` with NonNull alone and both
configuration flags off gets the single axiom `ty_x.extract(1, 1) == 0`. -/
theorem input_selector_axiom_table_witness :
    ∃ sv s', Input.toSMT (intEnv false false) 32 "nonnull x" "x"
        ⟨false, false, true, false, 0, 0, 0⟩ (mkState [] true 0) = .ok (sv, s') ∧
      s'.axioms = [expr.eq (expr.extract (expr.mkVar "ty_x" 2) 1 1) (expr.mkUInt 0 1)] := by
  refine ⟨_, _, rfl, ?_⟩
  obtain ⟨sel, hax, _, _, _, h3, _⟩ :=
    (input_selector_axiom_table (intEnv false false) 32 "nonnull x" "x"
      ⟨false, false, true, false, 0, 0, 0⟩ (mkState [] true 0)).2 _ _ rfl
  rw [hax, h3 rfl rfl]
  rfl

/-- C15. Dereferenceable axiom, for a translation that returns `(sv, s')`.  When
Dereferenceable is set, the appended axioms are exactly the
dereferenceability of the pointer built from the returned value, for
`attrs.derefBytes` bytes, at alignment `bits_byte / 8`, not as a write,
followed by the selector axiom `ty == 0`; and the returned value is the plain
encoding: the type's input encoding, or the pointer of `get_global` for a
by-value input, never a selector-conditional.  When Dereferenceable is not set,
every appended axiom is one of the three selector axioms, so no
dereferenceability axiom is appended. -/
theorem input_dereferenceable (E : Env Memory Ty) (type : Ty) (name smt_name : String)
    (attrs : ParamAttrs) (s s' : State Memory) (sv : StateValue)
    (h : Input.toSMT E type name smt_name attrs s = .ok (sv, s')) :
    (attrs.Dereferenceable = true →
      s'.axioms = s.axioms ++
        [E.isDereferenceable s'.memory sv.value attrs.derefBytes (E.bits_byte / 8) false,
          expr.eq (Input.getTyVar smt_name) (expr.mkUInt 0 2)] ∧
      (attrs.ByVal = false → sv.value = E.mkInput type s smt_name attrs ∧
        s'.memory = s.memory) ∧
      (attrs.ByVal = true →
        ∃ bid s1, get_global E s name (expr.mkUInt attrs.blockSize E.bits_size_t) attrs.align
          false = .ok (sv.value, bid, s1) ∧ s'.memory = E.markByVal s1.memory bid)) ∧
    (attrs.Dereferenceable = false →
      ∃ appended, s'.axioms = s.axioms ++ appended ∧ appended.length ≤ 1 ∧
        ∀ a ∈ appended,
          a = expr.eq (Input.getTyVar smt_name) (expr.mkUInt 0 2) ∨
          a = expr.eq (expr.extract (Input.getTyVar smt_name) 0 0) (expr.mkUInt 0 1) ∨
          a = expr.eq (expr.extract (Input.getTyVar smt_name) 1 1) (expr.mkUInt 0 1)) := by
  have hax := Input.toSMT_axioms E type name smt_name attrs s s' sv h
  have hval := Input.toSMT_value E type name smt_name attrs s s' sv h
  constructor
  · intro hd
    refine ⟨?_, ?_, ?_⟩
    · rw [hax]
      simp only [hd, Bool.or_true, Bool.true_or, if_true]
      rfl
    · intro hb
      refine ⟨?_, ?_⟩
      · rw [(hval.2 hb).1]
        simp [hd]
      · rw [Input.toSMT_not_byval E type name smt_name attrs s hb] at h
        simp only [hd, Bool.or_true, Bool.true_or, if_true] at h
        injection h with h
        injection h with _ hs
        subst hs
        rfl
    · intro hb
      cases hg : get_global E s name (expr.mkUInt attrs.blockSize E.bits_size_t)
          attrs.align false with
      | error e =>
        rw [Input.toSMT_byval_error E type name smt_name attrs s e hb hg] at h
        cases h
      | ok r =>
        obtain ⟨ptr, bid, s1⟩ := r
        rw [Input.toSMT_byval E type name smt_name attrs s s1 ptr bid hb hg] at h
        simp only [hd, if_true] at h
        injection h with h
        injection h with hsv hs
        subst hs; subst hsv
        exact ⟨bid, s1, rfl, rfl⟩
  · intro hd
    refine ⟨_, hax, ?_, ?_⟩
    · simp only [hd]
      cases E.disable_undef_input <;> cases E.disable_poison_input <;> cases attrs.ByVal <;>
        cases attrs.NoUndef <;> cases attrs.NonNull <;> simp
    · intro a ha
      simp only [hd] at ha
      revert ha
      cases E.disable_undef_input <;> cases E.disable_poison_input <;> cases attrs.ByVal <;>
        cases attrs.NoUndef <;> cases attrs.NonNull <;>
        (intro ha
         simp [expr.eqUInt, expr.bits] at ha <;>
         (subst ha
          simp))

/-- C15, on a concrete input: a dereferenceable(4) 64-bit input `p`: the axioms
are the dereferenceability of the plain variable `p` for 4 bytes, then
`ty_p == 0`. -/
theorem input_dereferenceable_witness :
    ∃ sv s', Input.toSMT (intEnv false false) 64 "dereferenceable p" "p"
        ⟨false, true, false, false, 0, 0, 4⟩ (mkState [] true 0) = .ok (sv, s') ∧
      sv.value = expr.mkVar "p" 64 ∧
      s'.axioms = [expr.app "dereferenceable" (expr.mkVar "p" 64) (expr.mkUInt 4 64),
        expr.eq (expr.mkVar "ty_p" 2) (expr.mkUInt 0 2)] := by
  refine ⟨_, _, rfl, rfl, ?_⟩
  have := (input_dereferenceable (intEnv false false) 64 "dereferenceable p" "p"
    ⟨false, true, false, false, 0, 0, 4⟩ (mkState [] true 0) _ _ rfl).1 rfl
  rw [this.1]
  rfl

end InputAxioms

/-! ## Side effects, allocation parameters and printing -/

section Effects

variable {Memory Ty : Type}

/-- C16. Side effects of the terminal variants.  `PoisonValue::toSMT`,
`VoidValue::toSMT` and `NullPointerValue::toSMT` return the state they were given;
Void returns `(false, false)` and NullPointer returns the null pointer of the
memory with poison-freedom true.  `UndefValue::toSMT` returns the fresh variable
`undef!<counter>`, which has the width of the type's dummy value, and adds
exactly this variable to the registry of undefined variables; the axioms, the
global table, the memory and the phase are untouched (the only other change
is the advance of the fresh-variable counter, which is not part of the
execution state of the program). -/
theorem terminal_side_effects (E : Env Memory Ty) (type : Ty) (name : String)
    (s : State Memory) :
    Value.toSMT E (Value.PoisonValue type name) s = .ok (E.getDummyValue type false, s) ∧
    Value.toSMT E (Value.VoidValue type name) s =
      .ok (⟨expr.mkBool false, expr.mkBool false⟩, s) ∧
    Value.toSMT E (Value.NullPointerValue type name) s =
      .ok (⟨E.mkNullPointer s.memory, expr.mkBool true⟩, s) ∧
    ∃ var s', Value.toSMT E (Value.UndefValue type name) s =
        .ok (⟨var, (E.getDummyValue type true).non_poison⟩, s') ∧
      var = expr.mkFreshVar "undef" s.fresh_id (E.getDummyValue type true).value ∧
      var.bits = (E.getDummyValue type true).value.bits ∧
      s'.undef_vars = s.undef_vars ++ [var] ∧
      s'.axioms = s.axioms ∧ s'.glbvar_bids = s.glbvar_bids ∧ s'.memory = s.memory ∧
      s'.source = s.source ∧
      s' = { s with undef_vars := s.undef_vars ++ [var], fresh_id := s.fresh_id + 1 } := by
  refine ⟨?_, ?_, ?_, _, (UndefValue.toSMT E type s).2, ?_, rfl, rfl, rfl, rfl, rfl, rfl, rfl,
    rfl⟩
  · simp [Value.toSMT, PoisonValue.toSMT]
  · simp [Value.toSMT, VoidValue.toSMT]
  · simp [Value.toSMT, NullPointerValue.toSMT]
  · simp only [Value.toSMT, UndefValue.toSMT]

/-- C16, on a concrete state: an undef value of the 32-bit type translated in a
state holding one axiom and one global keeps both and registers `undef!0`. -/
theorem terminal_side_effects_witness :
    ∃ s', Value.toSMT (intEnv false false) (Value.UndefValue 32 "undef")
        { mkState [("g", 3, true)] true 5 with axioms := [expr.mkBool true] } =
          .ok (⟨expr.mkFreshVar "undef" 0 (expr.mkUInt 0 32), expr.mkBool true⟩, s') ∧
      s'.undef_vars = [expr.mkFreshVar "undef" 0 (expr.mkUInt 0 32)] ∧
      s'.axioms = [expr.mkBool true] ∧ s'.glbvar_bids = [("g", 3, true)] ∧
      s'.memory = LogMemory.init 5 := by
  obtain ⟨var, s', h1, h2, _, h4, h5, h6, h7, _⟩ :=
    (terminal_side_effects (intEnv false false) 32 "undef"
      { mkState [("g", 3, true)] true 5 with axioms := [expr.mkBool true] }).2.2.2
  subst h2
  exact ⟨s', h1, h4, h5, h6, h7⟩

/-- C17. Allocation parameters of a global.  Whenever `GlobalVariable::toSMT`
issues an allocation, that is when the name is not in the table or is recorded
not yet allocated (in the second program), the request has as size the
constant `allocsize` of width `bits_size_t`, as alignment the alignment of the
variable, and as kind CONSTGLOBAL for a constant variable and GLOBAL otherwise;
when the name is recorded as allocated nothing is requested.  In every branch
the poison-freedom component is true.  A by-value input that allocates requests
the kind GLOBAL, with size `attrs.blockSize` and alignment `attrs.align`. -/
theorem globalVariable_alloc_params (E : Env Memory Ty) (type : Ty) (g smt_name : String)
    (allocsize align : Nat) (isconst : Bool) (attrs : ParamAttrs) (s : State Memory) :
    (s.hasGlobalVarBid g = none →
      GlobalVariable.toSMT E g allocsize align isconst s =
        .ok (⟨(E.alloc s.memory (expr.mkUInt allocsize E.bits_size_t) align
            (if isconst then BlockKind.CONSTGLOBAL else BlockKind.GLOBAL)
            (expr.mkBool true) (expr.mkBool true) none).first, expr.mkBool true⟩,
          (s.setMemory (E.alloc s.memory (expr.mkUInt allocsize E.bits_size_t) align
            (if isconst then BlockKind.CONSTGLOBAL else BlockKind.GLOBAL)
            (expr.mkBool true) (expr.mkBool true) none).memory).addGlobalVarBid g
            (E.alloc s.memory (expr.mkUInt allocsize E.bits_size_t) align
              (if isconst then BlockKind.CONSTGLOBAL else BlockKind.GLOBAL)
              (expr.mkBool true) (expr.mkBool true) none).bid)) ∧
    (∀ b, s.hasGlobalVarBid g = some (b, false) → s.isSource = false →
      GlobalVariable.toSMT E g allocsize align isconst s =
        .ok (⟨(E.alloc s.memory (expr.mkUInt allocsize E.bits_size_t) align
            (if isconst then BlockKind.CONSTGLOBAL else BlockKind.GLOBAL)
            (expr.mkBool true) (expr.mkBool true) (some b)).first, expr.mkBool true⟩,
          (s.setMemory (E.alloc s.memory (expr.mkUInt allocsize E.bits_size_t) align
            (if isconst then BlockKind.CONSTGLOBAL else BlockKind.GLOBAL)
            (expr.mkBool true) (expr.mkBool true) (some b)).memory).markGlobalAsAllocated g)) ∧
    (∀ b, s.hasGlobalVarBid g = some (b, true) →
      GlobalVariable.toSMT E g allocsize align isconst s =
        .ok (⟨E.mkPointer s.memory b false, expr.mkBool true⟩, s)) ∧
    (∀ sv s', GlobalVariable.toSMT E g allocsize align isconst s = .ok (sv, s') →
      sv.non_poison = expr.mkBool true) ∧
    (attrs.ByVal = true →
      (s.hasGlobalVarBid g = none →
        ∃ s', Input.toSMT E type g smt_name attrs s =
            .ok (⟨(E.alloc s.memory (expr.mkUInt attrs.blockSize E.bits_size_t) attrs.align
              BlockKind.GLOBAL (expr.mkBool true) (expr.mkBool true) none).first,
              (E.getDummyValue type true).non_poison⟩, s') ∧
          s'.memory = E.markByVal
            (E.alloc s.memory (expr.mkUInt attrs.blockSize E.bits_size_t) attrs.align
              BlockKind.GLOBAL (expr.mkBool true) (expr.mkBool true) none).memory
            (E.alloc s.memory (expr.mkUInt attrs.blockSize E.bits_size_t) attrs.align
              BlockKind.GLOBAL (expr.mkBool true) (expr.mkBool true) none).bid) ∧
      (∀ b, s.hasGlobalVarBid g = some (b, false) → s.isSource = false →
        ∃ s', Input.toSMT E type g smt_name attrs s =
            .ok (⟨(E.alloc s.memory (expr.mkUInt attrs.blockSize E.bits_size_t) attrs.align
              BlockKind.GLOBAL (expr.mkBool true) (expr.mkBool true) (some b)).first,
              (E.getDummyValue type true).non_poison⟩, s') ∧
          s'.memory = E.markByVal
            (E.alloc s.memory (expr.mkUInt attrs.blockSize E.bits_size_t) attrs.align
              BlockKind.GLOBAL (expr.mkBool true) (expr.mkBool true) (some b)).memory b)) := by
  refine ⟨?_, ?_, ?_, ?_, ?_⟩
  · intro hl
    simp only [GlobalVariable.toSMT, get_global_absent E s g _ align isconst hl]
  · intro b hl htgt
    simp only [GlobalVariable.toSMT, get_global_unallocated E s g _ align b isconst hl htgt]
  · intro b hl
    simp only [GlobalVariable.toSMT, get_global_allocated E s g _ align b isconst hl]
  · intro sv s' h
    cases hg : get_global E s g (expr.mkUInt allocsize E.bits_size_t) align isconst with
    | error e =>
      simp only [GlobalVariable.toSMT, hg] at h
      cases h
    | ok r =>
      obtain ⟨ptr, bid, s0⟩ := r
      simp only [GlobalVariable.toSMT, hg] at h
      injection h with h
      injection h with hsv _
      subst hsv
      rfl
  · intro hb
    constructor
    · intro hl
      have hg := get_global_absent E s g (expr.mkUInt attrs.blockSize E.bits_size_t)
        attrs.align false hl
      refine ⟨_, Input.toSMT_byval E type g smt_name attrs s _ _ _ hb hg, ?_⟩
      cases attrs.Dereferenceable <;> rfl
    · intro b hl htgt
      have hg := get_global_unallocated E s g (expr.mkUInt attrs.blockSize E.bits_size_t)
        attrs.align b false hl htgt
      refine ⟨_, Input.toSMT_byval E type g smt_name attrs s _ _ _ hb hg, ?_⟩
      cases attrs.Dereferenceable <;> rfl

/-- C17, on concrete runs in the logging memory: the non-constant global `v` of
12 bytes and alignment 4 requests `(12 as 64-bit constant, 4, GLOBAL)`, and a
by-value input with block size 16 and alignment 4 requests
`(16 as 64-bit constant, 4, GLOBAL)`. -/
theorem globalVariable_alloc_params_witness :
    (∃ sv s', GlobalVariable.toSMT (intEnv false false) "v" 12 4 false (mkState [] true 5) =
        .ok (sv, s') ∧ sv.non_poison = expr.mkBool true ∧
      s'.memory.allocs = [(expr.mkUInt 12 64, 4, BlockKind.GLOBAL, 5)]) ∧
    ∃ s', Input.toSMT (intEnv false false) 64 "v" "p" ⟨true, false, false, false, 4, 16, 0⟩
        (mkState [] true 5) = .ok (⟨expr.sym "blk" 5, expr.mkBool true⟩, s') ∧
      s'.memory.allocs = [(expr.mkUInt 16 64, 4, BlockKind.GLOBAL, 5)] := by
  have h := globalVariable_alloc_params (intEnv false false) 64 "v" "p" 12 4 false
    ⟨true, false, false, false, 4, 16, 0⟩ (mkState [] true 5)
  refine ⟨⟨_, _, h.1 rfl, rfl, rfl⟩, ?_⟩
  obtain ⟨s', h1, h2⟩ := (h.2.2.2.2 rfl).1 rfl
  refine ⟨s', h1, ?_⟩
  rw [h2]
  rfl

/-- C18. Printing fails as a programming-contract violation (unreachable) for
every Undef, Poison, Void, NullPointer, Aggregate and Input value, whatever is
already on the stream; among the variants of this layer it succeeds only for
GlobalVariable, for which it writes the name, ` = `, `constant ` or `global `,
the byte size in decimal, ` bytes, align ` and the alignment in decimal. -/
theorem print_outcomes (instrPrint : Nat → String → Except Fatal String) (type : Ty)
    (name smt_name : String) (allocsize align : Nat) (isconst : Bool)
    (vals : List (Value Ty)) (attrs : ParamAttrs) (os : String) :
    Value.print instrPrint (Value.UndefValue type name) os = .error Fatal.unreachable ∧
    Value.print instrPrint (Value.PoisonValue type name) os = .error Fatal.unreachable ∧
    Value.print instrPrint (Value.VoidValue type name) os = .error Fatal.unreachable ∧
    Value.print instrPrint (Value.NullPointerValue type name) os = .error Fatal.unreachable ∧
    Value.print instrPrint (Value.AggregateValue type name vals) os =
      .error Fatal.unreachable ∧
    Value.print instrPrint (Value.Input type name smt_name attrs) os =
      .error Fatal.unreachable ∧
    Value.print instrPrint (Value.GlobalVariable type name allocsize align isconst) os =
      .ok (os ++ name ++ " = " ++ (if isconst then "constant " else "global ") ++
        toString allocsize ++ " bytes, align " ++ toString align) ∧
    Value.print instrPrint (Value.GlobalVariable type name allocsize align isconst) "" =
      .ok (name ++ " = " ++ (if isconst then "constant " else "global ") ++
        Nat.repr allocsize ++ " bytes, align " ++ Nat.repr align) ∧
    ∀ v : Value Ty, v.isInstr = false →
      ((∃ out, Value.print instrPrint v os = .ok out) ↔
        ∃ t n a al c, v = Value.GlobalVariable t n a al c) := by
  refine ⟨rfl, rfl, rfl, rfl, rfl, rfl, rfl, ?_, ?_⟩
  · simp [Value.print, GlobalVariable.print]
    rfl
  · intro v hv
    cases v with
    | UndefValue t n => simp [Value.print, UndefValue.print, UNREACHABLE]
    | PoisonValue t n => simp [Value.print, PoisonValue.print, UNREACHABLE]
    | VoidValue t n => simp [Value.print, VoidValue.print, UNREACHABLE]
    | NullPointerValue t n => simp [Value.print, NullPointerValue.print, UNREACHABLE]
    | GlobalVariable t n a al c => simp [Value.print, GlobalVariable.print]
    | AggregateValue t n vs => simp [Value.print, AggregateValue.print, UNREACHABLE]
    | Input t n sn at_ => simp [Value.print, Input.print, UNREACHABLE]
    | Instr t n id => simp [Value.isInstr] at hv

/-- C18, on the constant global `g` of 8 bytes and alignment 8. -/
theorem print_outcomes_witness :
    Value.print (fun _ os => .ok os) (Value.GlobalVariable 64 "g" 8 8 true) "" =
      .ok "g = constant 8 bytes, align 8" ∧
    Value.print (fun _ os => .ok os) (Value.UndefValue 32 "undef") "" =
      .error Fatal.unreachable := by
  have h := print_outcomes (fun _ os => .ok os) (64 : Nat) "g" "g" 8 8 true []
    ⟨false, false, false, false, 0, 0, 0⟩ ""
  refine ⟨?_, (print_outcomes (fun _ os => .ok os) (32 : Nat) "undef" "undef" 8 8 true []
    ⟨false, false, false, false, 0, 0, 0⟩ "").1⟩
  rw [h.2.2.2.2.2.2.2.1]
  exact congrArg Except.ok (by decide)

end Effects

/-! ## Consistency of the selector axioms -/

section SelectorConsistency

variable {Memory Ty : Type}

/-- With the selector at 0, each of the three selector axioms holds. -/
theorem holds_selector_axioms_of_zero (M : expr.Model) (smt_name : String)
    (h0 : expr.eval M (Input.getTyVar smt_name) = 0) :
    expr.holds M ((Input.getTyVar smt_name).eqUInt 0) ∧
    expr.holds M (((Input.getTyVar smt_name).extract 0 0).eqUInt 0) ∧
    expr.holds M (((Input.getTyVar smt_name).extract 1 1).eqUInt 0) := by
  refine ⟨(holds_ty_eq_zero M smt_name).2 h0, (holds_ty_bit_eq_zero M smt_name 0).2 ?_,
    (holds_ty_bit_eq_zero M smt_name 1).2 ?_⟩
  · show (expr.eval M (Input.getTyVar smt_name) / 2 ^ 0) % 2 ^ (0 - 0 + 1) = 0
    rw [h0]
    rfl
  · show (expr.eval M (Input.getTyVar smt_name) / 2 ^ 1) % 2 ^ (1 - 1 + 1) = 0
    rw [h0]
    rfl

/-- C19. The selector axioms are never contradictory.  Whatever the attributes
and the two configuration flags are, the translation returns unless the input
is by-value and `get_global` fails its assertion; and when it returns, in every
model where the selector is 00 every selector axiom it has appended holds, the
returned value evaluates to the normal encoding of the input (the type's input
encoding, or the pointer of `get_global` for a by-value input) and the
poison-freedom component to the non-poisoned marker.  Models with selector 00
exist, so the selector axioms are satisfiable. -/
theorem input_selector_zero (E : Env Memory Ty) (type : Ty) (name smt_name : String)
    (attrs : ParamAttrs) (s : State Memory) :
    ((∃ sv s', Input.toSMT E type name smt_name attrs s = .ok (sv, s')) ∨
      (attrs.ByVal = true ∧
        get_global E s name (expr.mkUInt attrs.blockSize E.bits_size_t) attrs.align false =
          .error Fatal.assertion ∧
        Input.toSMT E type name smt_name attrs s = .error Fatal.assertion)) ∧
    (∃ M : expr.Model, expr.eval M (Input.getTyVar smt_name) = 0) ∧
    ∀ sv s', Input.toSMT E type name smt_name attrs s = .ok (sv, s') →
      ∃ (selector_axioms : List expr) (normal : expr),
        s'.axioms = s.axioms ++
          ((if attrs.Dereferenceable then
              [E.isDereferenceable s'.memory sv.value attrs.derefBytes (E.bits_byte / 8) false]
            else []) ++ selector_axioms) ∧
        (attrs.ByVal = false → normal = E.mkInput type s smt_name attrs) ∧
        (attrs.ByVal = true →
          ∃ bid s1, get_global E s name (expr.mkUInt attrs.blockSize E.bits_size_t)
            attrs.align false = .ok (normal, bid, s1)) ∧
        ∀ M : expr.Model, expr.eval M (Input.getTyVar smt_name) = 0 →
          (∀ a ∈ selector_axioms, expr.holds M a) ∧
          expr.eval M sv.value = expr.eval M normal ∧
          expr.eval M sv.non_poison = expr.eval M (E.getDummyValue type true).non_poison := by
  refine ⟨Input.toSMT_total E type name smt_name attrs s,
    ⟨⟨fun _ _ => 0, fun _ _ => 0, fun _ _ => 0, fun _ _ _ => 0⟩, ?_⟩, ?_⟩
  · simp [Input.getTyVar, expr.eval]
  intro sv s' h
  have hax := Input.toSMT_axioms E type name smt_name attrs s s' sv h
  have hval := Input.toSMT_value E type name smt_name attrs s s' sv h
  refine ⟨_, if attrs.ByVal then sv.value else E.mkInput type s smt_name attrs, hax, ?_, ?_, ?_⟩
  · intro hb
    simp [hb]
  · intro hb
    simp only [hb, if_true]
    exact (hval.1 hb).1
  · intro M h0
    obtain ⟨ha, hb0, hb1⟩ := holds_selector_axioms_of_zero M smt_name h0
    refine ⟨?_, ?_, ?_⟩
    · intro a hmem
      revert hmem
      cases (E.disable_undef_input || attrs.ByVal || attrs.Dereferenceable || attrs.NoUndef) <;>
        cases (E.disable_poison_input || attrs.ByVal || attrs.Dereferenceable ||
          attrs.NonNull || attrs.NoUndef) <;>
        intro hmem <;> simp at hmem <;> (subst hmem; assumption)
    · cases hb : attrs.ByVal with
      | true => simp
      | false =>
        rw [(hval.2 hb).1]
        cases (E.disable_undef_input || attrs.Dereferenceable || attrs.NoUndef) <;>
          simp [eval_mkIf_bit0, h0]
    · cases hb : attrs.ByVal with
      | true => rw [(hval.1 hb).2]
      | false =>
        rw [(hval.2 hb).2]
        cases (E.disable_poison_input || attrs.Dereferenceable || attrs.NonNull ||
          attrs.NoUndef) <;> simp [eval_mkIf_bit1, h0]

/-- C19, on a concrete input: for the 32-bit input `x` with NonNull, in the model
where every variable is 0 except `x`, which is 9, the appended axiom holds and
the returned pair evaluates to `(9, true)`. -/
theorem input_selector_zero_witness :
    ∃ sv s', Input.toSMT (intEnv false false) 32 "nonnull x" "x"
        ⟨false, false, true, false, 0, 0, 0⟩ (mkState [] true 0) = .ok (sv, s') ∧
      (∀ a ∈ s'.axioms, expr.holds
        ⟨fun n _ => if n = "x" then 9 else 0, fun _ _ => 0, fun _ _ => 0, fun _ _ _ => 0⟩ a) ∧
      expr.eval
        ⟨fun n _ => if n = "x" then 9 else 0, fun _ _ => 0, fun _ _ => 0, fun _ _ _ => 0⟩
        sv.value = 9 := by
  obtain ⟨sel, normal, hax, hn, _, hM⟩ :=
    (input_selector_zero (intEnv false false) 32 "nonnull x" "x"
      ⟨false, false, true, false, 0, 0, 0⟩ (mkState [] true 0)).2.2 _ _ rfl
  obtain ⟨h1, h2, _⟩ := hM
    ⟨fun n _ => if n = "x" then 9 else 0, fun _ _ => 0, fun _ _ => 0, fun _ _ _ => 0⟩
    (by decide)
  refine ⟨_, _, rfl, ?_, ?_⟩
  · intro a ha
    apply h1
    rw [hax] at ha
    exact ha
  · rw [h2, hn rfl]
    decide

/-- C20. Every attribute that excludes undef also excludes poison.  With
`never_undef` and `never_poison` as computed by `Input::toSMT`: `never_undef`
holds and `never_poison` does not exactly when `disable_undef_input` is on,
`disable_poison_input` is off and none of ByVal, Dereferenceable, NonNull,
NoUndef is set; and a translation that returns has appended exactly the
low-bit axiom `ty.extract(0, 0) == 0` in that case and in no other.  An input
with NonNull alone, both flags off, gets only the axiom on bit 1 and keeps the
selector-conditional value: in every model with selector 01 that axiom holds
and the value evaluates to the undefined variant. -/
theorem input_low_bit_axiom_iff (E : Env Memory Ty) (type : Ty) (name smt_name : String)
    (attrs : ParamAttrs) (s : State Memory) :
    (((E.disable_undef_input || attrs.ByVal || attrs.Dereferenceable || attrs.NoUndef) = true ∧
        (E.disable_poison_input || attrs.ByVal || attrs.Dereferenceable || attrs.NonNull ||
          attrs.NoUndef) = false) ↔
      (E.disable_undef_input = true ∧ E.disable_poison_input = false ∧ attrs.ByVal = false ∧
        attrs.Dereferenceable = false ∧ attrs.NonNull = false ∧ attrs.NoUndef = false)) ∧
    (∀ sv s', Input.toSMT E type name smt_name attrs s = .ok (sv, s') →
      (s'.axioms = s.axioms ++
          [expr.eq (expr.extract (Input.getTyVar smt_name) 0 0) (expr.mkUInt 0 1)] ↔
        (E.disable_undef_input = true ∧ E.disable_poison_input = false ∧ attrs.ByVal = false ∧
          attrs.Dereferenceable = false ∧ attrs.NonNull = false ∧ attrs.NoUndef = false))) ∧
    (E.disable_undef_input = false → E.disable_poison_input = false → attrs.ByVal = false →
      attrs.Dereferenceable = false → attrs.NoUndef = false → attrs.NonNull = true →
      ∃ s', Input.toSMT E type name smt_name attrs s =
          .ok (⟨expr.mkIf
              (expr.eq (expr.extract (Input.getTyVar smt_name) 0 0) (expr.mkUInt 0 1))
              (E.mkInput type s smt_name attrs) (E.mkUndefInput type s attrs).1.1,
            (E.getDummyValue type true).non_poison⟩, s') ∧
        s'.axioms = s.axioms ++
          [expr.eq (expr.extract (Input.getTyVar smt_name) 1 1) (expr.mkUInt 0 1)] ∧
        ∀ M : expr.Model, expr.eval M (Input.getTyVar smt_name) = 1 →
          expr.holds M
            (expr.eq (expr.extract (Input.getTyVar smt_name) 1 1) (expr.mkUInt 0 1)) ∧
          expr.eval M (expr.mkIf
              (expr.eq (expr.extract (Input.getTyVar smt_name) 0 0) (expr.mkUInt 0 1))
              (E.mkInput type s smt_name attrs) (E.mkUndefInput type s attrs).1.1) =
            expr.eval M (E.mkUndefInput type s attrs).1.1) := by
  refine ⟨?_, ?_, ?_⟩
  · cases E.disable_undef_input <;> cases E.disable_poison_input <;> cases attrs.ByVal <;>
      cases attrs.Dereferenceable <;> cases attrs.NonNull <;> cases attrs.NoUndef <;> simp
  · intro sv s' h
    rw [Input.toSMT_axioms E type name smt_name attrs s s' sv h, List.append_cancel_left_eq]
    cases E.disable_undef_input <;> cases E.disable_poison_input <;> cases attrs.ByVal <;>
      cases attrs.Dereferenceable <;> cases attrs.NonNull <;> cases attrs.NoUndef <;>
      simp [expr.eqUInt, expr.bits, Input.getTyVar]
  · intro hu hp hb hd hnu hnn
    rw [Input.toSMT_not_byval E type name smt_name attrs s hb]
    simp only [hu, hp, hd, hnu, hnn]
    refine ⟨_, rfl, rfl, ?_⟩
    intro M h1
    constructor
    · show expr.holds M (((Input.getTyVar smt_name).extract 1 1).eqUInt 0)
      apply (holds_ty_bit_eq_zero M smt_name 1).2
      show (expr.eval M (Input.getTyVar smt_name) / 2 ^ 1) % 2 ^ (1 - 1 + 1) = 0
      rw [h1]
      rfl
    · have := eval_mkIf_bit0 M (Input.getTyVar smt_name) (E.mkInput type s smt_name attrs)
        (E.mkUndefInput type s attrs).1.1
      rw [h1] at this
      simpa using this

/-- C20, on concrete inputs: with `disable_undef_input` on, the 32-bit input `x`
without attributes gets the low-bit axiom; with NoUndef instead it gets
`ty_x == 0`. -/
theorem input_low_bit_axiom_iff_witness :
    (∃ sv s', Input.toSMT (intEnv true false) 32 "x" "x" ⟨false, false, false, false, 0, 0, 0⟩
        (mkState [] true 0) = .ok (sv, s') ∧
      s'.axioms = [expr.eq (expr.extract (expr.mkVar "ty_x" 2) 0 0) (expr.mkUInt 0 1)]) ∧
    ∃ sv s', Input.toSMT (intEnv false false) 32 "noundef x" "x"
        ⟨false, false, false, true, 0, 0, 0⟩ (mkState [] true 0) = .ok (sv, s') ∧
      s'.axioms = [expr.eq (expr.mkVar "ty_x" 2) (expr.mkUInt 0 2)] ∧
      s'.axioms ≠ [expr.eq (expr.extract (expr.mkVar "ty_x" 2) 0 0) (expr.mkUInt 0 1)] := by
  refine ⟨⟨_, _, rfl, ?_⟩, _, _, rfl, rfl, ?_⟩
  · exact ((input_low_bit_axiom_iff (intEnv true false) 32 "x" "x"
      ⟨false, false, false, false, 0, 0, 0⟩ (mkState [] true 0)).2.1 _ _ rfl).2
      ⟨rfl, rfl, rfl, rfl, rfl, rfl⟩
  · intro hcontra
    have := ((input_low_bit_axiom_iff (intEnv false false) 32 "noundef x" "x"
      ⟨false, false, false, true, 0, 0, 0⟩ (mkState [] true 0)).2.1 _ _ rfl).1 hcontra
    exact absurd this.2.2.2.2.2 (by decide)

end SelectorConsistency

end IR
